import Mathlib

/-!
Verification development for the `bigfloat` arbitrary-precision decimal
arithmetic engine (Go package `bigfloat` with sub-package `stranalyzer`).

The engine stores a number as an `Analysis` record: a buffer of decimal
digits (most significant first), a sign in `{+1, -1}`, a count `decimals`
of trailing fractional digits, and the buffer length.  The Go code keeps
the digits as ASCII bytes `'0'..'9'`; here every digit byte is modelled by
its digit value `0..9` (the constant `+48` / `-48` shifts of the source,
`add(buf, 48)` and the `byteFix` argument of `read`, are identity
translations under this representation and are noted where they occur).
Go `int` values that are provably non-negative are modelled by `Nat`;
values that can go negative (signs, transient exponent arithmetic, slice
position computations) are modelled by `Int`.  Fallible operations return
`Except String`.  A Go runtime panic is modelled as an `Except.error`
whose message starts with `panic:`.
-/

namespace BigfloatSpec

/-- Value of a digit buffer, most significant digit first.
`Nat.ofDigits` is little endian, hence the `reverse`. -/
def valN (l : List Nat) : Nat :=
  Nat.ofDigits 10 l.reverse

/-- All entries of a digit buffer are actual decimal digits. -/
def DigitsOk (l : List Nat) : Prop :=
  ∀ d ∈ l, d < 10

instance : DecidablePred DigitsOk := fun l =>
  inferInstanceAs (Decidable (∀ d ∈ l, d < 10))

theorem valN_nil : valN [] = 0 := rfl

theorem valN_append (l₁ l₂ : List Nat) :
    valN (l₁ ++ l₂) = valN l₁ * 10 ^ l₂.length + valN l₂ := by
  simp only [valN, List.reverse_append, Nat.ofDigits_append, List.length_reverse]
  ring

theorem valN_singleton (d : Nat) : valN [d] = d := by
  simp [valN, Nat.ofDigits]

theorem valN_cons (d : Nat) (l : List Nat) :
    valN (d :: l) = d * 10 ^ l.length + valN l := by
  have h := valN_append [d] l
  simpa [valN_singleton] using h

theorem valN_snoc (l : List Nat) (d : Nat) :
    valN (l ++ [d]) = 10 * valN l + d := by
  rw [valN_append, valN_singleton]
  simp [List.length_singleton]
  ring

theorem valN_replicate_zero (n : Nat) : valN (List.replicate n 0) = 0 := by
  induction n with
  | zero => rfl
  | succ k ih =>
      have h : List.replicate (k + 1) 0 = 0 :: List.replicate k 0 := rfl
      rw [h, valN_cons, ih]
      simp

theorem valN_lt_pow (l : List Nat) (h : DigitsOk l) :
    valN l < 10 ^ l.length := by
  induction l with
  | nil => simp [valN_nil]
  | cons d t ih =>
      have hd : d < 10 := h d (List.mem_cons_self ..)
      have ht : DigitsOk t := fun x hx => h x (List.mem_cons_of_mem _ hx)
      have h1 := ih ht
      rw [valN_cons]
      have h2 : d * 10 ^ t.length ≤ 9 * 10 ^ t.length :=
        Nat.mul_le_mul_right _ (by omega)
      have h3 : (10 : Nat) ^ (d :: t).length = 10 * 10 ^ t.length := by
        simp [List.length_cons, pow_succ]
        ring
      omega

theorem valN_pos_of_head_ne_zero (d : Nat) (l : List Nat) (hd : d ≠ 0) :
    10 ^ l.length ≤ valN (d :: l) := by
  rw [valN_cons]
  have : 1 * 10 ^ l.length ≤ d * 10 ^ l.length :=
    Nat.mul_le_mul_right _ (by omega)
  omega

/-- Dropping leading zeros does not change the value. -/
theorem valN_replicate_zero_append (n : Nat) (l : List Nat) :
    valN (List.replicate n 0 ++ l) = valN l := by
  rw [valN_append, valN_replicate_zero]
  ring

/-- Taking a prefix of a digit buffer divides the value by a power of ten:
the prefix of length `l.length - k` is `valN l / 10 ^ k`. -/
theorem valN_take (l : List Nat) (k : Nat) (h : DigitsOk l) (hk : k ≤ l.length) :
    valN (l.take (l.length - k)) = valN l / 10 ^ k := by
  have hdroplen : (l.drop (l.length - k)).length = k := by
    simp [List.length_drop]
    omega
  have hdig : DigitsOk (l.drop (l.length - k)) := fun d hd =>
    h d (List.drop_subset _ _ hd)
  have hlt : valN (l.drop (l.length - k)) < 10 ^ k := by
    have := valN_lt_pow (l.drop (l.length - k)) hdig
    rwa [hdroplen] at this
  have hval : valN l
      = valN (l.take (l.length - k)) * 10 ^ k + valN (l.drop (l.length - k)) := by
    conv_lhs => rw [← List.take_append_drop (l.length - k) l]
    rw [valN_append, hdroplen]
  rw [hval, Nat.add_comm,
    Nat.add_mul_div_right _ _ (Nat.pos_pow_of_pos k (by norm_num)),
    Nat.div_eq_of_lt hlt, Nat.zero_add]

/-! ### Data model

`stranalyzer.Analysis` / `bigfloat.BigFloat` (the `BigFloat` struct holds
exactly one `Analysis`, so the wrapper is collapsed here). -/

structure Analysis where
  norm : List Nat
  sign : Int
  decimals : Nat
  len : Nat
deriving Repr, DecidableEq

/-- The data-model invariants I1 to I5 of the specification.
The conjunct `decimals < len` expresses that the integer portion
`digits[0 : length-decimals]` always holds at least one digit: the
analyzer and every mutator keep an explicit `'0'` integer digit for
purely fractional values (spec section 3, "digits still begins with a
`'0'`").  `headOk` is invariant I4: no redundant leading zeros, i.e. a
leading zero in the integer portion only as its single digit. -/
structure Inv (a : Analysis) : Prop where
  lenEq : a.len = a.norm.length
  digitsOk : DigitsOk a.norm
  decLt : a.decimals < a.len
  signOk : a.sign = 1 ∨ a.sign = -1
  zeroSign : valN a.norm = 0 → a.sign = 1
  headOk : 1 < a.len - a.decimals → a.norm.headI ≠ 0

instance (a : Analysis) : Decidable (Inv a) :=
  decidable_of_iff
    (a.len = a.norm.length ∧ DigitsOk a.norm ∧ a.decimals < a.len ∧
      (a.sign = 1 ∨ a.sign = -1) ∧ (valN a.norm = 0 → a.sign = 1) ∧
      (1 < a.len - a.decimals → a.norm.headI ≠ 0))
    ⟨fun h => ⟨h.1, h.2.1, h.2.2.1, h.2.2.2.1, h.2.2.2.2.1, h.2.2.2.2.2⟩,
     fun h => ⟨h.lenEq, h.digitsOk, h.decLt, h.signOk, h.zeroSign, h.headOk⟩⟩

/-! ### Lexical analyzer (`stranalyzer.Analyze`)

The analyzer consumes the literal character by character with early error
returns; this is the per-character state and step function.  `unicode`
classification is modelled for the ASCII range (all inputs appearing in
the package are ASCII): `IsGraphic` holds for code points 32..126 and
`IsDigit` for `'0'..'9'`. -/

structure AState where
  sign : Int
  signFound : Bool
  decimalPointFound : Bool
  eFound : Bool
  eSign : Int
  eSignFound : Bool
  digitFound : Bool
  nonZeroDigitFound : Bool
  normBuf : List Nat
  eBuf : List Nat
  decimals : Nat
  len : Nat
deriving Repr, DecidableEq

def initAState : AState :=
  ⟨1, false, false, false, 1, false, false, false, [], [], 0, 0⟩

def visible (c : Char) : Bool :=
  32 ≤ c.toNat && c.toNat ≤ 126

def isDigitChar (c : Char) : Bool :=
  48 ≤ c.toNat && c.toNat ≤ 57

/-- One step of the `Analyze` character loop (`stranalyzer.go`, lines
34-106).  Error messages follow the source (positions omitted). -/
def astep (st : AState) (c : Char) : Except String AState :=
  if ¬ visible c then .ok st
  else if c = '+' ∨ c = '-' then
    if st.signFound ∧ ¬ st.eFound then
      .error ("Sign already found before")
    else if st.eSignFound ∧ st.eFound then
      .error ("E sign already found before")
    else if st.digitFound ∧ ¬ st.eFound then
      .error ("Sign found after digit")
    else if st.decimalPointFound ∧ ¬ st.eFound then
      .error ("Sign found after decimal point and before E number")
    else if st.eFound then
      .ok { st with eSignFound := true,
                    eSign := if c = '-' then -1 else st.eSign }
    else
      .ok { st with signFound := true,
                    sign := if c = '-' then -1 else st.sign }
  else if c = '.' then
    if st.decimalPointFound then
      .error ("Decimal point already found before")
    else if st.eFound then
      .error ("Decimal point not allowed in E number")
    else if ¬ st.nonZeroDigitFound then
      .ok { st with decimalPointFound := true,
                    normBuf := st.normBuf ++ [0],
                    len := st.len + 1 }
    else
      .ok { st with decimalPointFound := true }
  else if c = 'E' ∨ c = 'e' then
    if st.eFound then
      .error ("E already found before")
    else if ¬ st.nonZeroDigitFound then
      .error ("Missing number before E number")
    else
      .ok { st with eFound := true }
  else if isDigitChar c then
    if ¬ st.eFound then
      if st.decimalPointFound ∨ c ≠ '0' ∨ (st.digitFound ∧ st.nonZeroDigitFound) then
        .ok { st with
              normBuf := st.normBuf ++ [c.toNat - 48],
              len := st.len + 1,
              decimals := if st.decimalPointFound then st.decimals + 1 else st.decimals,
              nonZeroDigitFound := if c ≠ '0' then true else st.nonZeroDigitFound,
              digitFound := true }
      else
        .ok { st with digitFound := true }
    else
      .ok { st with eBuf := st.eBuf ++ [c.toNat - 48], digitFound := true }
  else if c = ' ' then .ok st
  else .error ("invalid big float number")

/-- Post-loop finalization of `Analyze` (`stranalyzer.go`, lines 107-148).
`strconv.ParseInt` of the exponent digit string is modelled by `valN`
(its error return is ignored by the source; exponents overflowing 64 bits
are out of modelled range).  In the positive-exponent branch the source
computes the number of appended zeros as an `int` that can go negative,
in which case Go's `bytes.Repeat` panics; that is modelled as an error
starting with `panic:`. -/
def analyzeFinish (st : AState) : Except String Analysis :=
  if st.eFound ∧ st.eBuf = [] then .error ("invalid E number")
  else if ¬ st.digitFound then .error ("invalid number")
  else
    let st := if st.len = 0 then
                { st with normBuf := st.normBuf ++ [0], len := st.len + 1 }
              else st
    let sgn : Int := if ¬ st.nonZeroDigitFound ∧ st.sign ≠ 1 then 1 else st.sign
    if st.eFound then
      let eInt : Nat := valN st.eBuf
      if st.eSign = 1 then
        let d : Int := (st.decimals : Int) - (eInt : Int)
        if d < 0 then
          .ok ⟨st.normBuf ++ List.replicate (-d).toNat 0, sgn, 0,
               st.len + (-d).toNat⟩
        else
          let pad : Int := (eInt : Int) - d
          if pad < 0 then .error ("panic: bytes: negative Repeat count")
          else
            .ok ⟨st.normBuf ++ List.replicate pad.toNat 0, sgn, d.toNat,
                 st.len + pad.toNat⟩
      else
        let dec : Nat := st.decimals + eInt
        if dec ≥ st.len then
          let pre : Nat := dec - st.len + 1
          .ok ⟨List.replicate pre 0 ++ st.normBuf, sgn, dec, st.len + pre⟩
        else
          .ok ⟨st.normBuf, sgn, dec, st.len⟩
    else
      .ok ⟨st.normBuf, sgn, st.decimals, st.len⟩

/-- The complete lexical analyzer `stranalyzer.Analyze`. -/
def Analyze (s : List Char) : Except String Analysis := do
  let st ← s.foldlM astep initAState
  analyzeFinish st

/-! ### Integer seeding and scalar mutators -/

/-- Little-endian decimal digits with explicit fuel (structurally
recursive so that concrete instances reduce inside the kernel); agrees
with `Nat.digits 10` by `natDigitsAux_eq_digits`. -/
def natDigitsAux : Nat → Nat → List Nat
  | 0, _ => []
  | fuel + 1, n => if n = 0 then [] else n % 10 :: natDigitsAux fuel (n / 10)

theorem natDigitsAux_eq_digits (fuel n : Nat) (h : n ≤ fuel) :
    natDigitsAux fuel n = Nat.digits 10 n := by
  induction fuel generalizing n with
  | zero =>
      have : n = 0 := by omega
      subst this
      simp [natDigitsAux]
  | succ k ih =>
      by_cases hn : n = 0
      · subst hn
        simp [natDigitsAux]
      · have hpos : 0 < n := Nat.pos_of_ne_zero hn
        rw [natDigitsAux, if_neg hn, Nat.digits_def' (by norm_num : 1 < 10) hpos,
          ih (n / 10) (by omega)]

/-- Decimal digit string of a natural number, most significant first
(`strconv.FormatInt` for non-negative input). -/
def natDigits (n : Nat) : List Nat :=
  if n = 0 then [0] else (natDigitsAux n n).reverse

theorem natDigits_eq (n : Nat) :
    natDigits n = if n = 0 then [0] else (Nat.digits 10 n).reverse := by
  rw [natDigits, natDigitsAux_eq_digits n n le_rfl]

/-- `SetInt64`: the source formats `n` with `strconv.FormatInt` and runs
`SetString`/`Analyze` on it.  On such canonical integer literals the
analyzer returns exactly the decimal digits (no leading zeros), the sign
of `n`, and zero decimals. -/
def setInt (n : Int) : Analysis :=
  ⟨natDigits n.natAbs, if n < 0 then -1 else 1, 0, (natDigits n.natAbs).length⟩

/-- Closed form of `SetInt64(n).SetDecimals(d)` as used by `IsInt64`:
`SetDecimals` on a freshly seeded integer appends `d` zero digits; its
final `Sign(sign)` call leaves the sign unchanged (a negative seed is
nonzero, so the `IsInt64(0)` zero-test inside `Sign` fails).  The lemma
`setIntWithDecimals_eq` below re-derives this from the `SetDecimals`
definition. -/
def setIntWithDecimals (n : Int) (d : Nat) : Analysis :=
  ⟨natDigits n.natAbs ++ List.replicate d 0, if n < 0 then -1 else 1, d,
   (natDigits n.natAbs).length + d⟩

/-- `IsInt64`: compares the receiver field-wise against `n` seeded and
padded to the receiver's decimal count. -/
def IsInt64 (f : Analysis) (n : Int) : Bool :=
  let nF := setIntWithDecimals n f.decimals
  f.sign == nF.sign && f.decimals == nF.decimals && f.len == nF.len &&
    f.norm == nF.norm

/-- The digit string of `n` evaluates to `n`. -/
theorem valN_natDigits (m : Nat) : valN (natDigits m) = m := by
  rw [natDigits_eq]
  by_cases h : m = 0
  · subst h
    rfl
  · simp only [if_neg h, valN, List.reverse_reverse, Nat.ofDigits_digits]

/-- `Sign(s)`: on `s = -1` the source first writes sign `1` (so that the
zero test compares against a canonical positive zero), resets `s` to `1`
if the value is zero, and finally stores `s`. -/
def Sign (f : Analysis) (s : Int) : Analysis :=
  if s = -1 then
    let f1 : Analysis := { f with sign := 1 }
    let s1 : Int := if IsInt64 f1 0 then 1 else s
    { f1 with sign := s1 }
  else { f with sign := s }

/-- `Neg`: flip the sign (except on zero, handled inside `Sign`). -/
def Neg (f : Analysis) : Analysis :=
  Sign f (f.sign * -1)

/-- `Abs`: force sign `+1`. -/
def Abs (f : Analysis) : Analysis :=
  Sign f 1

/-- `SetDecimals(n)`: append zeros (n larger), truncate the buffer
(n smaller) or leave it (n equal), then re-canonicalize the sign.
The slice bound `Len - Decimals + n` is non-negative `int` arithmetic
under invariant I2. -/
def SetDecimals (f : Analysis) (n : Nat) : Analysis :=
  if n = f.decimals then Sign f f.sign
  else
    let f1 : Analysis :=
      if n > f.decimals then
        { f with norm := f.norm ++ List.replicate (n - f.decimals) 0 }
      else
        { f with norm := f.norm.take (f.len - f.decimals + n) }
    let f2 : Analysis := { f1 with decimals := n, len := f1.norm.length }
    Sign f2 f2.sign

/-- The zero test inside `Sign` fails on any value whose digit buffer is a
nonzero digit string followed by zero padding. -/
theorem isInt64_zero_padded_false (m : Nat) (hm : m ≠ 0) (d : Nat) (s : Int) (ln : Nat) :
    IsInt64 ⟨natDigits m ++ List.replicate d 0, s, d, ln⟩ 0 = false := by
  simp only [IsInt64, setIntWithDecimals, Bool.and_eq_false_iff]
  right
  rw [beq_eq_false_iff_ne]
  intro hcontra
  have hv := congrArg valN hcontra
  rw [valN_append, valN_append, valN_replicate_zero, valN_natDigits] at hv
  have : valN (natDigits 0) = 0 := valN_natDigits 0
  simp only [Int.natAbs_zero] at hv
  rw [this] at hv
  simp only [List.length_replicate] at hv
  have hpow : 0 < (10 : Nat) ^ d := Nat.pos_pow_of_pos d (by norm_num)
  have : 0 < m := Nat.pos_of_ne_zero hm
  nlinarith

theorem setIntWithDecimals_eq (n : Int) (d : Nat) :
    SetDecimals (setInt n) d = setIntWithDecimals n d := by
  by_cases hn : n < 0
  · have hz : n.natAbs ≠ 0 := by omega
    by_cases hd : d = 0
    · subst hd
      have h0 := isInt64_zero_padded_false n.natAbs hz 0 1 (natDigits n.natAbs).length
      simp only [List.replicate_zero, List.append_nil] at h0
      simp [SetDecimals, setInt, setIntWithDecimals, Sign, hn, h0]
    · have h0 : ∀ ln : Nat,
          IsInt64 ⟨natDigits n.natAbs ++ List.replicate d 0, 1, d, ln⟩ 0 = false :=
        fun ln => isInt64_zero_padded_false n.natAbs hz d 1 ln
      have hdp : 0 < d := Nat.pos_of_ne_zero hd
      simp [SetDecimals, setInt, setIntWithDecimals, Sign, hn, hd, hdp, h0]
  · by_cases hd : d = 0
    · subst hd
      simp [SetDecimals, setInt, setIntWithDecimals, Sign, hn]
    · have hdp : 0 < d := Nat.pos_of_ne_zero hd
      simp [SetDecimals, setInt, setIntWithDecimals, Sign, hn, hd, hdp]

/-- Number of leading zeros removed by the trim loops: scan at most
`bound` leading entries, stop at the first nonzero digit.  (`iTrim` in
`Mul`, `add`, `sub` with `bound = len - decimals - 1`, and in `Mul10`
with `bound = len - decimals`.) -/
def trimCount : List Nat → Nat → Nat
  | _, 0 => 0
  | [], _ + 1 => 0
  | d :: t, b + 1 => if d = 0 then trimCount t b + 1 else 0

/-- `Mul10(n)` (shift-left): consume decimals if more than `n` remain,
otherwise append `n - decimals` zeros, clear `decimals`, and strip all
leading zeros of the integer portion (the source's trim loop runs up to
`Len - Decimals` — with no digit reserved). -/
def Mul10 (f : Analysis) (n : Nat) : Analysis :=
  if (f.decimals : Int) - n > 0 then
    { f with decimals := f.decimals - n }
  else
    let norm1 := f.norm ++ List.replicate (n - f.decimals) 0
    let len1 := f.len + (n - f.decimals)
    let iTrim := trimCount norm1 len1
    if iTrim > 0 then
      ⟨norm1.drop iTrim, f.sign, 0, len1 - iTrim⟩
    else
      ⟨norm1, f.sign, 0, len1⟩

/-- `Div10(n)` (shift-right): prepend `n - (len - decimals) + 1` zeros
when the integer portion runs out, then add `n` to `decimals`. -/
def Div10 (f : Analysis) (n : Nat) : Analysis :=
  if f.decimals + n ≥ f.len then
    let zeroes := List.replicate (n - (f.len - f.decimals) + 1) 0
    ⟨zeroes ++ f.norm, f.sign, f.decimals + n, f.len + zeroes.length⟩
  else
    { f with decimals := f.decimals + n }

/-- `Pow10(n)`: a literal `1` followed by `n` zeros, or `Div10` on `1`
for negative `n`.  The source's error return is always `nil`. -/
def Pow10 (n : Int) : Analysis :=
  if n < 0 then Div10 (setInt 1) (-n).toNat
  else ⟨1 :: List.replicate n.toNat 0, 1, 0, n.toNat + 1⟩

/-- `Frac`: replace the integer portion by a single `0`; force sign `+1`
when every remaining digit is zero. -/
def Frac (f : Analysis) : Analysis :=
  if 0 < f.len - f.decimals then
    let norm1 := 0 :: f.norm.drop (f.len - f.decimals)
    ⟨norm1, if norm1.all (· = 0) then 1 else f.sign, f.decimals, norm1.length⟩
  else f

/-- `Trunc` with an explicit decimal-place target (the `RoundOption`
default is the current decimal count; a negative target panics in the
source and is outside this model).  The loop overwrites every fractional
digit with `'0'`, then `SetDecimals` resizes. -/
def Trunc (f : Analysis) (dp : Nat) : Analysis :=
  let norm1 := f.norm.take (f.len - f.decimals) ++ List.replicate f.decimals 0
  SetDecimals { f with norm := norm1 } dp

/-! ### Alignment and the additive core

`align` is variadic in the source but every call site passes exactly two
operands, so it is embedded binary.  The `byteFix = -48` ASCII shift
passed through `multiRead` is the identity under the digit-value
representation. -/

structure Correction where
  offset : Int
  reverse : Int
deriving Repr, DecidableEq

structure Alignment where
  maxIntLen : Nat
  maxDecLen : Nat
  alen : Nat
  c1 : Correction
  c2 : Correction
deriving Repr, DecidableEq

def align (a b : Analysis) : Alignment :=
  let maxIntLen := max (a.len - a.decimals) (b.len - b.decimals)
  let maxDecLen := max a.decimals b.decimals
  ⟨maxIntLen, maxDecLen, maxIntLen + maxDecLen,
   ⟨(a.decimals : Int) - maxDecLen, (maxIntLen : Int) - ((a.len : Int) - a.decimals)⟩,
   ⟨(b.decimals : Int) - maxDecLen, (maxIntLen : Int) - ((b.len : Int) - b.decimals)⟩⟩

/-- `read`: digit at position `pos` counted least-significant-first under
the alignment correction, `0` outside the operand's digit span. -/
def read (pos : Nat) (f : Analysis) (c : Correction) : Nat :=
  let cPos : Int := (f.len : Int) - pos - c.offset - 1
  if 0 ≤ cPos ∧ cPos < (f.len : Int) then f.norm.getD cPos.toNat 0 else 0

/-- `reverse_read`: digit at position `pos` counted most-significant-first
under the alignment correction. -/
def reverse_read (pos : Nat) (f : Analysis) (c : Correction) : Nat :=
  let cPos : Int := (pos : Int) - c.reverse
  if 0 ≤ cPos ∧ cPos < (f.len : Int) then f.norm.getD cPos.toNat 0 else 0

/-- Digit-accumulation loop of magnitude addition: position, remaining
count, incoming carry; returns digits in append (least significant first)
order together with the final carry. -/
def addMagGo (a b : Analysis) (ca cb : Correction) :
    Nat → Nat → Nat → List Nat × Nat
  | _, 0, carry => ([], carry)
  | p, cnt + 1, carry =>
      let s := carry + read p a ca + read p b cb
      let r := addMagGo a b ca cb (p + 1) cnt (s / 10)
      (s % 10 :: r.1, r.2)

/-- Magnitude addition `(*BigFloat).add` of two same-sign operands:
aligned digit loop, final carry append, reverse, leading-zero trim
(keeping at least one digit before the decimal point), decimals =
`maxDecLen`, sign = first operand's sign. -/
def addMag (a b : Analysis) : Analysis :=
  let al := align a b
  let r := addMagGo a b al.c1 al.c2 0 al.alen 0
  let totalBuf := (r.1 ++ [r.2]).reverse
  let totalBuf :=
    if totalBuf.length > al.maxDecLen then
      totalBuf.drop (trimCount totalBuf (totalBuf.length - al.maxDecLen - 1))
    else totalBuf
  ⟨totalBuf, a.sign, al.maxDecLen, totalBuf.length⟩

/-- Digit loop of magnitude subtraction (first operand at least the
second): borrow propagation, least-significant first.  The transient
`v[0] - overflow` can be `-1` in the source's `int` arithmetic, hence the
`Int` computation. -/
def subMagGo (a b : Analysis) (ca cb : Correction) :
    Nat → Nat → Nat → List Nat
  | _, 0, _ => []
  | p, cnt + 1, borrow =>
      let v0 : Int := (read p a ca : Int) - borrow
      let v1 : Int := (read p b cb : Int)
      if v0 < v1 then
        (v0 + 10 - v1).toNat :: subMagGo a b ca cb (p + 1) cnt 1
      else
        (v0 - v1).toNat :: subMagGo a b ca cb (p + 1) cnt 0

/-- Magnitude subtraction `(*BigFloat).sub`: aligned borrow loop, reverse
(the final borrow is discarded), leading-zero trim, decimals =
`maxDecLen`, sign `+1`. -/
def subMag (a b : Analysis) : Analysis :=
  let al := align a b
  let totalBuf := (subMagGo a b al.c1 al.c2 0 al.alen 0).reverse
  let totalBuf :=
    if totalBuf.length > al.maxDecLen then
      totalBuf.drop (trimCount totalBuf (totalBuf.length - al.maxDecLen - 1))
    else totalBuf
  ⟨totalBuf, 1, al.maxDecLen, totalBuf.length⟩

/-- Digit loop of `compare`: most-significant first, first difference
decides, `sgn` is `+1` for absolute comparison and the receiver's sign
otherwise. -/
def cmpGo (f a : Analysis) (cf ca : Correction) (sgn : Int) :
    Nat → Nat → Int
  | _, 0 => 0
  | p, cnt + 1 =>
      let v0 := reverse_read p f cf
      let v1 := reverse_read p a ca
      if v0 < v1 then -sgn
      else if v1 < v0 then sgn
      else cmpGo f a cf ca sgn (p + 1) cnt

/-- Internal `compare`: same-sign (or absolute) comparisons walk the
aligned digits; differing signs are decided by the receiver's sign. -/
def compareInternal (f a : Analysis) (abs : Bool) : Int :=
  if abs || (f.sign == a.sign) then
    let al := align f a
    let sgn : Int := if abs then 1 else f.sign
    cmpGo f a al.c1 al.c2 sgn 0 al.alen
  else f.sign

def Compare (f a : Analysis) : Int := compareInternal f a false

def CompareAbs (f a : Analysis) : Int := compareInternal f a true

/-- Public `Add` with the zero shortcuts, sign resolution and operand
swap of the source (`math.Max` over `float64` decimals is exact integer
`max` in range). -/
def Add (a b : Analysis) : Analysis :=
  if IsInt64 a 0 then b
  else if IsInt64 b 0 then a
  else if a.sign == b.sign then addMag a b
  else
    let cmp := CompareAbs a b
    if cmp = 0 then SetDecimals (setInt 0) (max a.decimals b.decimals)
    else
      let p := if cmp < 0 then (b, a, b.sign) else (a, b, a.sign)
      Sign (subMag (Abs p.1) (Abs p.2.1)) p.2.2

/-- Public `Sub` with the sign resolution and operand swap of the
source. -/
def Sub (a b : Analysis) : Analysis :=
  if IsInt64 a 0 then Neg b
  else if IsInt64 b 0 then a
  else if a.sign ≠ b.sign then Sign (addMag (Abs a) (Abs b)) a.sign
  else
    let cmp := CompareAbs a b
    if cmp = 0 then SetDecimals (setInt 0) (max a.decimals b.decimals)
    else
      let p := if cmp < 0 then (b, a, b.sign * -1) else (a, b, a.sign)
      Sign (subMag (Abs p.1) (Abs p.2.1)) p.2.2

/-- `Round(n)`: truncate the buffer at position `len - decimals + n`,
then add a signed `10^(-n)` when the first dropped digit is at least
`'5'`, and re-canonicalize the sign. -/
def Round (f : Analysis) (n : Nat) : Analysis :=
  if n < f.decimals then
    let pos := f.len - f.decimals + n
    let d := f.norm.getD pos 0
    let f1 : Analysis := ⟨f.norm.take pos, f.sign, n, f.len - (f.decimals - n)⟩
    let f2 :=
      if d ≥ 5 then
        let c := Sign (Div10 (setInt 1) n) f1.sign
        Add f1 c
      else f1
    Sign f2 f2.sign
  else f

/-! ### Multiplicative core -/

/-- Per-digit partial product (inner loop of `Mul`): multiply one digit
of `b` with the digits of `a` least-significant first, with carry; the
final carry is appended when nonzero. -/
def mulSubGo (bd : Nat) : List Nat → Nat → List Nat
  | [], carry => if carry ≠ 0 then [carry] else []
  | d :: t, carry =>
      let total := bd * d + carry
      total % 10 :: mulSubGo bd t (total / 10)

/-- All partial products with their offsets: one entry per nonzero digit
of `b`, tagged `offset = len(b) - bd - 1`. -/
def mulPartials (aStr bStr : List Nat) (blen : Nat) : List (Nat × List Nat) :=
  (List.range bStr.length).filterMap (fun bd =>
    let digit := bStr.getD bd 0
    if digit = 0 then none
    else some (blen - bd - 1, mulSubGo digit aStr.reverse 0))

/-- Column-summation loop of `Mul`: at each output position sum the
in-range digits of every partial product plus the running carry; the
final carry is appended after the loop. -/
def mulColGo (ps : List (Nat × List Nat)) : Nat → Nat → Nat → List Nat
  | _, 0, carry => [carry]
  | pos, cnt + 1, carry =>
      let s := ps.foldl
        (fun acc q =>
          if q.1 ≤ pos ∧ pos - q.1 < q.2.length then acc + q.2.getD (pos - q.1) 0
          else acc) carry
      s % 10 :: mulColGo ps (pos + 1) cnt (s / 10)

/-- Count of trailing zeros scanned by the fractional trim loop of `Mul`
(at most `bound` of them). -/
def trailTrimCount (l : List Nat) (bound : Nat) : Nat :=
  trimCount l.reverse bound

/-- Public `Mul`: shortcuts for `0` and `±1`, then long multiplication,
leading-zero trim on the integer portion and trailing-zero trim on the
fraction.  Sign is the product of signs. -/
def Mul (a b : Analysis) : Analysis :=
  if IsInt64 a 0 || IsInt64 b 0 then
    SetDecimals (setInt 0) (max a.decimals b.decimals)
  else if IsInt64 a 1 then b
  else if IsInt64 a (-1) then Neg b
  else if IsInt64 b 1 then a
  else if IsInt64 b (-1) then Neg a
  else
    let partials := mulPartials a.norm b.norm b.len
    let lenP := a.len + b.len
    let totalBuf := (mulColGo partials 0 lenP 0).reverse
    let newDec := a.decimals + b.decimals
    let tb1 :=
      if totalBuf.length > newDec then
        totalBuf.drop (trimCount totalBuf (totalBuf.length - newDec - 1))
      else totalBuf
    let q : List Nat × Nat :=
      if newDec > 0 then
        let jTrim := trailTrimCount tb1 newDec
        (tb1.take (tb1.length - jTrim), newDec - jTrim)
      else (tb1, newDec)
    ⟨q.1, a.sign * b.sign, q.2, q.1.length⟩

/-- `MulInt64`: shortcuts for `0`, `±1`; exact powers of ten (detected on
the decimal string of `n` by stripping trailing `'0'`s down to `"1"` or
`"-1"`) dispatch to `Mul10` with a sign fixup; anything else multiplies
by the seeded value. -/
def MulInt64 (f : Analysis) (n : Int) : Analysis :=
  if n = 0 then
    ⟨List.replicate (f.decimals + 1) 0, 1, f.decimals, f.decimals + 1⟩
  else if n = 1 then f
  else if n = -1 then
    if ¬ IsInt64 f 0 then { f with sign := f.sign * -1 } else f
  else
    let ds := natDigits n.natAbs
    let numZeroes := trailTrimCount ds ds.length
    if numZeroes > 0 ∧ ds.take (ds.length - numZeroes) = [1] then
      let f1 := if n < 0 then { f with sign := f.sign * -1 } else f
      Mul10 f1 numZeroes
    else
      Mul f (setInt n)

/-! ### Formatter -/

def digitChar (d : Nat) : Char := Char.ofNat (48 + d)

/-- `StringWith`: optional sign prefix, integer digits, and — when
`decimals > 0` — a decimal point followed by the fractional digits. -/
def StringWith (f : Analysis) (forceSign : Bool) : List Char :=
  (if f.sign = -1 then ['-']
   else if forceSign ∧ ¬ IsInt64 f 0 then ['+']
   else []) ++
  (f.norm.take (f.len - f.decimals)).map digitChar ++
  (if f.decimals > 0 then
    '.' :: (f.norm.drop (f.len - f.decimals)).map digitChar
   else [])

/-- `String()`: formatting with default options. -/
def StringDefault (f : Analysis) : List Char :=
  StringWith f false

/-- `StringF`: split the formatted string before its last
`repeatingDecimals` characters and insert the repetend markers. -/
def StringF (f : Analysis) (repeatingDecimals : Nat)
    (indStart indEnd : List Char) (forceSign : Bool) : List Char :=
  let result := StringWith f forceSign
  if repeatingDecimals > 0 then
    result.take (result.length - repeatingDecimals) ++ indStart ++
      result.drop (result.length - repeatingDecimals) ++ indEnd
  else result

/-! ### Division engine -/

/-- The remainder-state map of the long-division loop (a Go
`map[string]int` keyed by the digit string of the running remainder,
modelled as an association list). -/
def lookupMap (m : List (List Nat × Nat)) (k : List Nat) : Option Nat :=
  (m.find? (fun e => e.1 == k)).map (·.2)

/-- Quotient-digit computation of one long-division step (`divmod`,
lines 566-594): estimate by dividing the up-to-5-digit prefixes as
native integers (string prefixes of a digit buffer; the `byte` cast of
the estimate is the `% 256`), correct a too-large estimate by one
decrement and one subtraction of the divisor from the product, then
subtract to form the new running remainder.  Returns the digit, the new
`divPart` and the scratch remainder value (`none` when the digit is zero
and the scratch is not written). -/
def stepQuotient (divPart : List Nat) (bC : Analysis) (cmpInt cmpLen : Nat) :
    Nat × List Nat × Option Analysis :=
  let divInt : Nat :=
    if divPart.length < bC.len then 0
    else (valN (divPart.take (divPart.length - (bC.len - cmpLen))) / cmpInt) % 256
  if divInt > 0 then
    let fProduct := if divInt > 1 then MulInt64 bC (divInt : Int) else bC
    let rem0 : Analysis := ⟨divPart, 1, 0, divPart.length⟩
    let pr := if Compare fProduct rem0 = 1 then (divInt - 1, Sub fProduct bC)
              else (divInt, fProduct)
    let rem1 := Sub rem0 pr.2
    (pr.1, rem1.norm, some rem1)
  else (0, divPart, none)

/-- State of the long-division loop at the top of an iteration. -/
structure LoopSt where
  aBuf : List Nat
  i : Nat
  divPart : List Nat
  result : List Nat
  bDecimals : Bool
  remMap : List (List Nat × Nat)
  decimals : Nat
  lastRem : List Nat
  remScratch : Analysis
deriving Repr

/-- Values surviving the loop exit, consumed by post-processing. -/
structure LoopOut where
  result : List Nat
  decimals : Nat
  repInd : Int
  lastRem : List Nat
  remScratch : Analysis
deriving Repr

/-- The long-division loop (`divmod`, lines 524-605), fuel-indexed.
Exits: (a) exact — fractional territory with zero remainder; (b) decimal
budget `goal` reached; repetend detected in the remainder map; safety cap
`mx` reached after emitting.  The in-place write `divPart[0] = digit`
(taken when `divPart == "0"`) is visible through `lastRemainder`, which
shares the slice's backing array — hence `lastRem` is updated to
`[digit]` in that branch. -/
def divLoop (bC : Analysis) (cmpInt cmpLen : Nat) (goal mx : Int) :
    Nat → LoopSt → Option LoopOut
  | 0, _ => none
  | fuel + 1, st =>
    let digit : Nat := if st.i ≥ st.aBuf.length then 0 else st.aBuf.getD st.i 0
    let bD : Bool := if st.i ≥ st.aBuf.length then true else st.bDecimals
    if (bD ∧ st.divPart = [0]) ∨ (goal > 0 ∧ (st.decimals : Int) = goal) then
      some ⟨st.result, st.decimals, -1, st.lastRem, st.remScratch⟩
    else
      match if bD then lookupMap st.remMap st.divPart else none with
      | some ind => some ⟨st.result, st.decimals, (ind : Int), st.lastRem, st.remScratch⟩
      | none =>
        let remMap' := if bD then st.remMap ++ [(st.divPart, st.decimals)] else st.remMap
        let decimals' := if bD then st.decimals + 1 else st.decimals
        let lastRem' := if st.divPart = [0] then [digit] else st.divPart
        let divPart1 := if st.divPart = [0] then [digit] else st.divPart ++ [digit]
        let q := stepQuotient divPart1 bC cmpInt cmpLen
        let scratch' := q.2.2.getD st.remScratch
        if q.1 > 0 ∨ st.result ≠ [] ∨ bD then
          let result' := st.result ++ (if bD ∧ st.result = [] then [0] else []) ++ [q.1]
          if (decimals' : Int) ≥ mx then
            some ⟨result', decimals', -1, lastRem', scratch'⟩
          else
            divLoop bC cmpInt cmpLen goal mx fuel
              ⟨st.aBuf, st.i + 1, q.2.1, result', bD, remMap', decimals', lastRem', scratch'⟩
        else
          divLoop bC cmpInt cmpLen goal mx fuel
            ⟨st.aBuf, st.i + 1, q.2.1, st.result, bD, remMap', decimals', lastRem', scratch'⟩

/-- The zero value of a Go `BigFloat` struct (`&BigFloat{}`): empty digit
buffer, sign `0`. -/
def emptyBF : Analysis := ⟨[], 0, 0, 0⟩

/-- Internal `divmod`.  `fIn`/`rIn` are the incoming states of the
destination and the remainder out-parameter (the source mutates them in
place; an error return leaves both untouched).  `dp` is
`decimalPlaces` (sentinel `-1` = auto), `mx` is `maxDecimalPlaces`.
The fuel passed to the loop is sufficient for every input
(theorem `divLoop_terminates`); fuel exhaustion is the distinguished
`unreachable` error. -/
def divmod (fIn rIn a b : Analysis) (bTrunc : Bool) (dp mx : Int) :
    Except String (Analysis × Analysis × Nat) :=
  if IsInt64 a 0 then
    let f1 := setInt 0
    let f2 := if dp ≥ 0 then SetDecimals f1 dp.toNat else f1
    .ok (f2, rIn, 0)
  else if IsInt64 b 0 then
    .error ("Division by zero")
  else
    let shift := a.decimals + b.decimals
    let aCopy := if shift > 0 then Mul10 (Abs a) shift else Abs a
    let bCopy := if shift > 0 then Mul10 (Abs b) shift else Abs b
    if IsInt64 bCopy 1 then
      let f1 := Sign aCopy (a.sign * b.sign)
      let f2 := if dp ≥ 0 then SetDecimals f1 dp.toNat else f1
      .ok (f2, rIn, 0)
    else
      let r0 := setInt 0
      let lastRem0 := setInt 0
      let maxLen := min 5 bCopy.len
      let cmpStr := bCopy.norm.take maxLen
      let cmpInt := valN cmpStr
      let initLen := min (bCopy.len - 1) aCopy.norm.length
      let goal : Int := if dp ≥ 0 then dp + 1 else dp
      let st0 : LoopSt :=
        ⟨aCopy.norm, bCopy.len - 1, aCopy.norm.take initLen, [], false, [], 0,
         lastRem0.norm, r0⟩
      let fuel := aCopy.norm.length + (max mx 1).toNat + 3
      match divLoop bCopy cmpInt cmpStr.length goal mx fuel st0 with
      | none => .error ("unreachable: loop fuel exhausted")
      | some out =>
        let repeatDecimals :=
          if out.repInd ≥ 0 then out.decimals - out.repInd.toNat else 0
        let padded : List Nat × Nat × Nat :=
          if goal ≥ 0 ∧ goal > (out.decimals : Int) then
            let shortfall := (goal - out.decimals).toNat
            let repeatStr :=
              if repeatDecimals > 0 then
                out.result.drop (out.result.length - repeatDecimals)
              else [0]
            let trail :=
              (List.flatten (List.replicate (shortfall / repeatStr.length + 1) repeatStr)).take
                shortfall
            (out.result ++ trail, goal.toNat, 0)
          else (out.result, out.decimals, repeatDecimals)
        let f1 : Analysis := ⟨padded.1, a.sign * b.sign, padded.2.1, padded.1.length⟩
        if dp ≥ 0 ∧ dp < (f1.decimals : Int) then
          let f2 := if bTrunc then Trunc f1 0
                    else SetDecimals (Round f1 dp.toNat) dp.toNat
          let rem1 := Div10 ⟨out.lastRem, 1, 0, out.lastRem.length⟩ shift
          .ok (f2, rem1, padded.2.2)
        else
          .ok (f1, out.remScratch, padded.2.2)

/-- `Div`: true division with options (defaults `decimalPlaces = -1`,
`maxDecimalPlaces = 10000`); the remainder out-parameter is a fresh zero
`BigFloat` struct that the caller discards. -/
def Div (a b : Analysis) (dp mx : Int) : Except String (Analysis × Nat) :=
  (divmod emptyBF emptyBF a b false dp mx).map (fun r => (r.1, r.2.2))

/-- `DivMod`: integer division with remainder — the engine with
`decimalPlaces = 0` and truncation mode. -/
def DivMod (a b : Analysis) : Except String (Analysis × Analysis) :=
  (divmod emptyBF emptyBF a b true 0 10000).map (fun r => (r.1, r.2.1))

deriving instance DecidableEq for Except

/-! ### Digit-sum toolkit

Bridges between `valN` and positional sums, used to verify the aligned
digit loops of the additive core. -/

theorem ofDigits_eq_sum_getD (m : List Nat) :
    Nat.ofDigits 10 m = ∑ k ∈ Finset.range m.length, m.getD k 0 * 10 ^ k := by
  induction m with
  | nil => simp
  | cons d t ih =>
      rw [Nat.ofDigits_cons, ih, List.length_cons, Finset.sum_range_succ']
      simp only [List.getD_cons_succ, List.getD_cons_zero, pow_zero, mul_one]
      have hstep : ∀ k : Nat, t.getD k 0 * 10 ^ (k + 1) = 10 * (t.getD k 0 * 10 ^ k) :=
        fun k => by ring
      simp only [hstep, ← Finset.mul_sum]
      omega

theorem valN_eq_sum_msb (l : List Nat) :
    valN l = ∑ k ∈ Finset.range l.length, l.getD k 0 * 10 ^ (l.length - 1 - k) := by
  induction l with
  | nil => simp [valN_nil]
  | cons d t ih =>
      rw [valN_cons, ih, List.length_cons, Finset.sum_range_succ']
      simp only [List.getD_cons_succ, List.getD_cons_zero, Nat.add_sub_cancel,
        Nat.sub_zero]
      rw [Nat.add_comm]
      congr 1
      apply Finset.sum_congr rfl
      intro k hk
      congr 2
      omega

theorem sum_msb_eq_valN (l : List Nat) :
    ∑ k ∈ Finset.range l.length, l.getD (l.length - 1 - k) 0 * 10 ^ k = valN l := by
  rw [valN_eq_sum_msb, ← Finset.sum_range_reflect]
  apply Finset.sum_congr rfl
  intro k hk
  rw [Finset.mem_range] at hk
  congr 2
  omega

theorem sum_ite_shift (h : Nat → Nat) (shift lenn L : Nat) (hL : shift + lenn ≤ L) :
    (∑ j ∈ Finset.range L,
      (if shift ≤ j ∧ j - shift < lenn then h (j - shift) else 0) * 10 ^ j)
    = 10 ^ shift * ∑ k ∈ Finset.range lenn, h k * 10 ^ k := by
  have hzero : ∀ j ∈ Finset.range L, j ∉ Finset.range (shift + lenn) →
      (if shift ≤ j ∧ j - shift < lenn then h (j - shift) else 0) * 10 ^ j = 0 := by
    intro j _ hj
    rw [Finset.mem_range] at hj
    rw [if_neg (by omega)]
    ring
  rw [← Finset.sum_subset (Finset.range_subset.mpr hL) hzero, Finset.sum_range_add]
  have hfirst : ∀ j ∈ Finset.range shift,
      (if shift ≤ j ∧ j - shift < lenn then h (j - shift) else 0) * 10 ^ j = 0 := by
    intro j hj
    rw [Finset.mem_range] at hj
    rw [if_neg (by omega)]
    ring
  rw [Finset.sum_congr rfl hfirst, Finset.sum_const_zero, Nat.zero_add, Finset.mul_sum]
  apply Finset.sum_congr rfl
  intro k hk
  rw [Finset.mem_range] at hk
  rw [if_pos (by omega)]
  have : shift + k - shift = k := by omega
  rw [this, pow_add]
  ring

/-- The aligned least-significant-first `read` is the shifted positional
digit access: position `j` holds digit `len - 1 - (j - shift)` of the
buffer when `shift ≤ j < shift + len` (with `shift = maxDec - decimals`)
and `0` outside. -/
theorem read_eq_ite (a : Analysis) (c : Correction) (maxDec : Nat)
    (hc : c.offset = (a.decimals : Int) - maxDec) (hdec : a.decimals ≤ maxDec)
    (hlen : a.len = a.norm.length) (j : Nat) :
    read j a c =
      if (maxDec - a.decimals) ≤ j ∧ j - (maxDec - a.decimals) < a.norm.length
      then a.norm.getD (a.norm.length - 1 - (j - (maxDec - a.decimals))) 0 else 0 := by
  unfold read
  rw [hc, hlen]
  by_cases hcond : (maxDec - a.decimals) ≤ j ∧ j - (maxDec - a.decimals) < a.norm.length
  · rw [if_pos (by constructor <;> omega), if_pos hcond]
    congr 1
    omega
  · rw [if_neg (by omega), if_neg hcond]

theorem read_sum (a : Analysis) (c : Correction) (maxDec L : Nat)
    (hc : c.offset = (a.decimals : Int) - maxDec) (hdec : a.decimals ≤ maxDec)
    (hlen : a.len = a.norm.length)
    (hL : (maxDec - a.decimals) + a.norm.length ≤ L) :
    ∑ j ∈ Finset.range L, read j a c * 10 ^ j
      = valN a.norm * 10 ^ (maxDec - a.decimals) := by
  have h1 : ∀ j ∈ Finset.range L, read j a c * 10 ^ j =
      (if (maxDec - a.decimals) ≤ j ∧ j - (maxDec - a.decimals) < a.norm.length
       then a.norm.getD (a.norm.length - 1 - (j - (maxDec - a.decimals))) 0 else 0)
        * 10 ^ j := by
    intro j _
    rw [read_eq_ite a c maxDec hc hdec hlen j]
  rw [Finset.sum_congr rfl h1,
    sum_ite_shift (fun k => a.norm.getD (a.norm.length - 1 - k) 0)
      (maxDec - a.decimals) a.norm.length L hL,
    sum_msb_eq_valN]
  ring

theorem getD_lt_ten (l : List Nat) (h : DigitsOk l) (i : Nat) : l.getD i 0 < 10 := by
  by_cases hi : i < l.length
  · rw [List.getD_eq_getElem l 0 hi]
    exact h _ (List.getElem_mem hi)
  · rw [List.getD_eq_default l 0 (by omega)]
    norm_num

theorem read_lt_ten (a : Analysis) (c : Correction) (j : Nat)
    (h : DigitsOk a.norm) : read j a c < 10 := by
  unfold read
  simp only []
  split
  · exact getD_lt_ten a.norm h _
  · norm_num

/-! ### Leading-zero trim loops -/

theorem trimCount_le_bound (l : List Nat) (b : Nat) : trimCount l b ≤ b := by
  induction l generalizing b with
  | nil => cases b <;> simp [trimCount]
  | cons d t ih =>
      cases b with
      | zero => simp [trimCount]
      | succ k =>
          rw [trimCount]
          split
          · have := ih k
            omega
          · omega

theorem trimCount_le_length (l : List Nat) (b : Nat) : trimCount l b ≤ l.length := by
  induction l generalizing b with
  | nil => cases b <;> simp [trimCount]
  | cons d t ih =>
      cases b with
      | zero => simp [trimCount]
      | succ k =>
          rw [trimCount]
          split
          · have := ih k
            simp only [List.length_cons]
            omega
          · omega

theorem trimCount_val (l : List Nat) (b : Nat) :
    valN (l.drop (trimCount l b)) = valN l := by
  induction l generalizing b with
  | nil => cases b <;> simp [trimCount]
  | cons d t ih =>
      cases b with
      | zero => simp [trimCount]
      | succ k =>
          rw [trimCount]
          split
          · next hd =>
              subst hd
              rw [List.drop_succ_cons, ih k, valN_cons]
              simp
          · simp

theorem trimCount_head (l : List Nat) (b : Nat) (h : trimCount l b < b) :
    l.drop (trimCount l b) = [] ∨ (l.drop (trimCount l b)).headI ≠ 0 := by
  induction l generalizing b with
  | nil => left; simp
  | cons d t ih =>
      cases b with
      | zero => omega
      | succ k =>
          rw [trimCount] at h ⊢
          by_cases hd : d = 0
          · rw [if_pos hd] at h ⊢
            rw [List.drop_succ_cons]
            exact ih k (by omega)
          · rw [if_neg hd] at h ⊢
            right
            simpa using hd

theorem trimCount_digitsOk (l : List Nat) (b : Nat) (h : DigitsOk l) :
    DigitsOk (l.drop (trimCount l b)) :=
  fun d hd => h d (List.drop_subset _ _ hd)

/-! ### Magnitude addition: correctness of the aligned carry loop -/

theorem addMagGo_spec (a b : Analysis) (ca cb : Correction)
    (hda : DigitsOk a.norm) (hdb : DigitsOk b.norm) :
    ∀ (cnt p carry : Nat), carry ≤ 1 →
      (addMagGo a b ca cb p cnt carry).1.length = cnt ∧
      (addMagGo a b ca cb p cnt carry).2 ≤ 1 ∧
      DigitsOk (addMagGo a b ca cb p cnt carry).1 ∧
      Nat.ofDigits 10 (addMagGo a b ca cb p cnt carry).1
        + 10 ^ cnt * (addMagGo a b ca cb p cnt carry).2
        = carry + ∑ j ∈ Finset.range cnt,
            (read (p + j) a ca + read (p + j) b cb) * 10 ^ j := by
  intro cnt
  induction cnt with
  | zero =>
      intro p carry hc
      refine ⟨rfl, hc, by intro d hd; simp [addMagGo] at hd, ?_⟩
      simp [addMagGo, Nat.ofDigits]
  | succ n ih =>
      intro p carry hc
      have hra := read_lt_ten a ca p hda
      have hrb := read_lt_ten b cb p hdb
      have hsdiv : (carry + read p a ca + read p b cb) / 10 ≤ 1 := by omega
      obtain ⟨ihlen, ihcar, ihdig, ihval⟩ := ih (p + 1)
        ((carry + read p a ca + read p b cb) / 10) hsdiv
      rw [addMagGo]
      simp only []
      refine ⟨by simpa using ihlen, ihcar, ?_, ?_⟩
      · intro d hd
        rcases List.mem_cons.mp hd with h1 | h2
        · subst h1
          omega
        · exact ihdig d h2
      · rw [Nat.ofDigits_cons]
        have hsum : ∑ j ∈ Finset.range (n + 1),
              (read (p + j) a ca + read (p + j) b cb) * 10 ^ j
            = (∑ j ∈ Finset.range n,
                (read (p + 1 + j) a ca + read (p + 1 + j) b cb) * 10 ^ j) * 10
              + (read p a ca + read p b cb) := by
          rw [Finset.sum_range_succ', Finset.sum_mul]
          congr 1
          · apply Finset.sum_congr rfl
            intro j _
            have h1 : p + (j + 1) = p + 1 + j := by omega
            rw [h1, pow_succ]
            ring
          · simp
        rw [hsum]
        have hpow : (10 : Nat) ^ (n + 1)
              * (addMagGo a b ca cb (p + 1) n
                  ((carry + read p a ca + read p b cb) / 10)).2
            = 10 * ((10 : Nat) ^ n
              * (addMagGo a b ca cb (p + 1) n
                  ((carry + read p a ca + read p b cb) / 10)).2) := by
          rw [pow_succ]
          ring
        rw [hpow]
        omega

theorem valN_reverse (l : List Nat) : valN l.reverse = Nat.ofDigits 10 l := by
  simp [valN, List.reverse_reverse]

/-- Correctness bundle for magnitude addition: the result value is the
sum of both operand values brought to the common scale `maxDecLen`, and
the result satisfies the representation invariants (its sign is the
first operand's). -/
theorem addMag_spec (a b : Analysis)
    (hla : a.len = a.norm.length) (hlb : b.len = b.norm.length)
    (hda : DigitsOk a.norm) (hdb : DigitsOk b.norm) :
    valN (addMag a b).norm
      = valN a.norm * 10 ^ ((align a b).maxDecLen - a.decimals)
        + valN b.norm * 10 ^ ((align a b).maxDecLen - b.decimals) ∧
    (addMag a b).sign = a.sign ∧
    (addMag a b).decimals = (align a b).maxDecLen ∧
    (addMag a b).len = (addMag a b).norm.length ∧
    DigitsOk (addMag a b).norm ∧
    (align a b).maxDecLen < (addMag a b).len ∧
    (1 < (addMag a b).len - (align a b).maxDecLen → (addMag a b).norm.headI ≠ 0) := by
  obtain ⟨glen, gcar, gdig, gval⟩ := addMagGo_spec a b (align a b).c1 (align a b).c2 hda hdb
    (align a b).alen 0 0 (by omega)
  have hmaxd : (align a b).maxDecLen = max a.decimals b.decimals := rfl
  have hmaxi : (align a b).maxIntLen = max (a.len - a.decimals) (b.len - b.decimals) := rfl
  have halen : (align a b).alen = (align a b).maxIntLen + (align a b).maxDecLen := rfl
  have hXa : ∑ j ∈ Finset.range (align a b).alen, read j a (align a b).c1 * 10 ^ j
      = valN a.norm * 10 ^ ((align a b).maxDecLen - a.decimals) := by
    apply read_sum a (align a b).c1 (align a b).maxDecLen (align a b).alen rfl
      (by rw [hmaxd]; omega) hla
    rw [halen, hmaxi, hmaxd, ← hla]
    omega
  have hXb : ∑ j ∈ Finset.range (align a b).alen, read j b (align a b).c2 * 10 ^ j
      = valN b.norm * 10 ^ ((align a b).maxDecLen - b.decimals) := by
    apply read_sum b (align a b).c2 (align a b).maxDecLen (align a b).alen rfl
      (by rw [hmaxd]; omega) hlb
    rw [halen, hmaxi, hmaxd, ← hlb]
    omega
  unfold addMag
  simp only []
  set r := addMagGo a b (align a b).c1 (align a b).c2 0 (align a b).alen 0 with hr
  set tb0 : List Nat := (r.1 ++ [r.2]).reverse with htb0
  have htlen : tb0.length = (align a b).alen + 1 := by
    rw [htb0]
    simp [glen]
  have hval0 : valN tb0 = valN a.norm * 10 ^ ((align a b).maxDecLen - a.decimals)
      + valN b.norm * 10 ^ ((align a b).maxDecLen - b.decimals) := by
    rw [htb0, valN_reverse, Nat.ofDigits_append, glen]
    have hone : Nat.ofDigits 10 [r.2] = r.2 := by simp [Nat.ofDigits]
    rw [hone, gval, ← hXa, ← hXb, ← Finset.sum_add_distrib]
    rw [Nat.zero_add]
    apply Finset.sum_congr rfl
    intro j _
    ring
  have hdig0 : DigitsOk tb0 := by
    intro d hd
    rw [htb0, List.mem_reverse] at hd
    rcases List.mem_append.mp hd with h1 | h2
    · exact gdig d h1
    · rcases List.mem_singleton.mp h2 with h3
      omega
  have hgt : tb0.length > (align a b).maxDecLen := by
    rw [htlen, halen]
    omega
  rw [if_pos hgt]
  set t := trimCount tb0 (tb0.length - (align a b).maxDecLen - 1) with ht
  have htb : t ≤ tb0.length - (align a b).maxDecLen - 1 := trimCount_le_bound _ _
  have hdroplen : (tb0.drop t).length = tb0.length - t := by
    simp [List.length_drop]
  refine ⟨?_, trivial, trivial, trivial, ?_, ?_, ?_⟩
  · rw [ht, trimCount_val, hval0]
  · rw [ht]
    exact trimCount_digitsOk _ _ hdig0
  · rw [hdroplen]
    omega
  · rw [hdroplen]
    intro hlt
    have htlt : t < tb0.length - (align a b).maxDecLen - 1 := by omega
    rw [ht] at htlt ⊢
    rcases trimCount_head tb0 (tb0.length - (align a b).maxDecLen - 1) htlt with hnil | hhd
    · exfalso
      have hc := congrArg List.length hnil
      simp only [List.length_drop, List.length_nil] at hc
      rw [← ht] at hc
      omega
    · exact hhd

/-! ### Termination of the long-division loop

Each continuing iteration advances `i` by one (integer phase) or — once in
fractional territory, where a digit is always emitted — increments
`decimals` and passes the safety-cap test, so the measure
`(aBuf.length - i) + (max(mx,1) + 1 - decimals)` strictly decreases. -/

theorem divLoop_isSome (bC : Analysis) (cmpInt cmpLen : Nat) (goal mx : Int) :
    ∀ (fuel : Nat) (st : LoopSt),
      st.aBuf.length - st.i + ((max mx 1).toNat + 1 - st.decimals) < fuel →
      (divLoop bC cmpInt cmpLen goal mx fuel st).isSome := by
  intro fuel
  induction fuel with
  | zero => exact fun st h => absurd h (Nat.not_lt_zero _)
  | succ k ih =>
      intro st h
      rw [divLoop]
      by_cases hexit :
          ((if st.i ≥ st.aBuf.length then true else st.bDecimals) ∧ st.divPart = [0]) ∨
          (goal > 0 ∧ (st.decimals : Int) = goal)
      · rw [if_pos hexit]
        rfl
      · rw [if_neg hexit]
        rcases hlook : (if (if st.i ≥ st.aBuf.length then true else st.bDecimals) then
            lookupMap st.remMap st.divPart else none) with _ | ind
        · simp only [hlook]
          set bD := (if st.i ≥ st.aBuf.length then true else st.bDecimals) with hbD
          set decimals' := if bD then st.decimals + 1 else st.decimals with hdec
          by_cases hemit :
              (stepQuotient (if st.divPart = [0] then
                  [if st.i ≥ st.aBuf.length then 0 else st.aBuf.getD st.i 0]
                else st.divPart ++ [if st.i ≥ st.aBuf.length then 0 else st.aBuf.getD st.i 0])
                bC cmpInt cmpLen).1 > 0 ∨ st.result ≠ [] ∨ bD = true
          · rw [if_pos hemit]
            by_cases hcap : (decimals' : Int) ≥ mx
            · rw [if_pos hcap]
              rfl
            · rw [if_neg hcap]
              apply ih
              simp only []
              have hdle : decimals' ≤ st.decimals + 1 := by
                rw [hdec]
                split <;> omega
              by_cases hi : st.i < st.aBuf.length
              · have hd2 : st.decimals ≤ decimals' := by
                  rw [hdec]
                  split <;> omega
                omega
              · have hbDt : bD = true := by
                  rw [hbD, if_pos (by omega)]
                have hdeq : decimals' = st.decimals + 1 := by
                  rw [hdec, if_pos hbDt]
                have hmx1 : (decimals' : Int) < mx := lt_of_not_le hcap
                have hcast : decimals' < (max mx 1).toNat := by
                  have h1 : (decimals' : Int) < max mx 1 :=
                    lt_of_lt_of_le hmx1 (le_max_left _ _)
                  omega
                omega
          · rw [if_neg hemit]
            apply ih
            simp only []
            push_neg at hemit
            have hbDf : bD = false := by
              rcases hemit with ⟨-, -, h3⟩
              simpa using h3
            have hi : st.i < st.aBuf.length := by
              by_contra hcon
              have : bD = true := by
                rw [hbD, if_pos (by omega)]
              rw [this] at hbDf
              exact absurd hbDf (by simp)
            have hdeq : decimals' = st.decimals := by
              rw [hdec, hbDf]
              simp
            omega
        · simp only [hlook]
          rfl

/-- The fuel `divmod` hands to the loop always suffices. -/
theorem divLoop_run_isSome (bC : Analysis) (cmpInt cmpLen : Nat) (goal mx : Int)
    (aBuf : List Nat) (i0 : Nat) (dp0 : List Nat) (lr : List Nat) (rs : Analysis) :
    (divLoop bC cmpInt cmpLen goal mx (aBuf.length + (max mx 1).toNat + 3)
      ⟨aBuf, i0, dp0, [], false, [], 0, lr, rs⟩).isSome := by
  apply divLoop_isSome
  simp only []
  omega

/-- Totality of the engine for a divisor failing the zero test
(shared helper for the termination and error-contract claims). -/
theorem divmod_total (fIn rIn a b : Analysis) (bTrunc : Bool) (dp mx : Int)
    (hb : IsInt64 b 0 = false) :
    ∃ v, divmod fIn rIn a b bTrunc dp mx = .ok v := by
  rw [divmod]
  by_cases ha : IsInt64 a 0 = true
  · rw [if_pos ha]
    exact ⟨_, rfl⟩
  · rw [if_neg ha, if_neg (by simp [hb])]
    simp only []
    generalize (if a.decimals + b.decimals > 0 then Mul10 (Abs a) (a.decimals + b.decimals)
      else Abs a) = aCopy
    generalize (if a.decimals + b.decimals > 0 then Mul10 (Abs b) (a.decimals + b.decimals)
      else Abs b) = bCopy
    by_cases h1 : IsInt64 bCopy 1 = true
    · rw [if_pos h1]
      exact ⟨_, rfl⟩
    · rw [if_neg h1]
      have hs := divLoop_run_isSome bCopy (valN (bCopy.norm.take (min 5 bCopy.len)))
        ((bCopy.norm.take (min 5 bCopy.len)).length)
        (if dp ≥ 0 then dp + 1 else dp) mx aCopy.norm (bCopy.len - 1)
        (aCopy.norm.take (min (bCopy.len - 1) aCopy.norm.length)) (setInt 0).norm (setInt 0)
      obtain ⟨out, hout⟩ := Option.isSome_iff_exists.mp hs
      rw [hout]
      simp only []
      repeat' split
      all_goals exact ⟨_, rfl⟩

/-! ### The zero test and the division-by-zero contract -/

theorem valN_eq_zero_iff (l : List Nat) :
    valN l = 0 ↔ l = List.replicate l.length 0 := by
  induction l with
  | nil => simp [valN_nil]
  | cons d t ih =>
      rw [valN_cons]
      constructor
      · intro h
        have hd : d = 0 := by
          have := Nat.pos_pow_of_pos t.length (show 0 < 10 by norm_num)
          nlinarith
        have ht : valN t = 0 := by omega
        subst hd
        simpa [List.replicate_succ] using ih.mp ht
      · intro h
        have hd : d = 0 := by
          have := congrArg List.headI h
          simpa using this
        subst hd
        have ht : t = List.replicate t.length 0 := by
          have := congrArg List.tail h
          simpa [List.replicate_succ] using this
        simp [ih.mpr ht, valN_replicate_zero]

/-- Componentwise version of the zero-test characterization, usable for
intermediate states that may violate the sign canonicalization. -/
theorem isInt64_zero_iff_of (x : Analysis) (hlen : x.len = x.norm.length)
    (hdec : x.decimals < x.len) (hhead : 1 < x.len - x.decimals → x.norm.headI ≠ 0)
    (hsgn : x.sign = 1) :
    IsInt64 x 0 = true ↔ valN x.norm = 0 := by
  have hnd : natDigits (Int.natAbs 0) = [0] := rfl
  constructor
  · intro h
    simp only [IsInt64, setIntWithDecimals, hnd, Bool.and_eq_true, beq_iff_eq] at h
    rw [h.2, valN_append, valN_singleton, valN_replicate_zero]
    simp
  · intro h
    have hrep := (valN_eq_zero_iff x.norm).mp h
    have hheadI : x.norm.headI = 0 := by
      rw [hrep]
      cases hn : x.norm.length with
      | zero => simp
      | succ k => simp [List.replicate_succ]
    have hint1 : x.len - x.decimals = 1 := by
      by_contra hc
      have h2 : 1 < x.len - x.decimals := by omega
      exact hhead h2 hheadI
    have hlen2 : x.len = 1 + x.decimals := by omega
    have hnorm : x.norm = [0] ++ List.replicate x.decimals 0 := by
      rw [hrep]
      have hl3 : x.norm.length = x.decimals + 1 := by omega
      rw [hl3]
      simp [List.replicate_succ]
    simp only [IsInt64, setIntWithDecimals, hnd, Bool.and_eq_true, beq_iff_eq,
      List.length_singleton]
    refine ⟨⟨⟨?_, trivial⟩, by omega⟩, hnorm⟩
    simpa using hsgn

/-- Under the data-model invariants, the code's representation test
`IsInt64 x 0` holds exactly when the magnitude is zero: invariant I4
forces the canonical all-zero buffer `0 :: 0^decimals`. -/
theorem isInt64_zero_iff (x : Analysis) (hx : Inv x) :
    IsInt64 x 0 = true ↔ valN x.norm = 0 := by
  constructor
  · intro h
    have hnd : natDigits (Int.natAbs 0) = [0] := rfl
    simp only [IsInt64, setIntWithDecimals, hnd, Bool.and_eq_true, beq_iff_eq] at h
    rw [h.2, valN_append, valN_singleton, valN_replicate_zero]
    simp
  · intro h
    exact (isInt64_zero_iff_of x hx.lenEq hx.decLt hx.headOk (hx.zeroSign h)).mpr h

/-! ### Invariant preservation by the mutators -/

/-- The sign-independent half of the invariants, satisfied by the
intermediate states whose sign the trailing `Sign` call of each mutator
re-canonicalizes. -/
structure WeakInv (a : Analysis) : Prop where
  lenEq : a.len = a.norm.length
  digitsOk : DigitsOk a.norm
  decLt : a.decimals < a.len
  signOk : a.sign = 1 ∨ a.sign = -1
  headOk : 1 < a.len - a.decimals → a.norm.headI ≠ 0

theorem Inv.weak {a : Analysis} (h : Inv a) : WeakInv a :=
  ⟨h.lenEq, h.digitsOk, h.decLt, h.signOk, h.headOk⟩

theorem Sign_fields (f : Analysis) (s : Int) :
    (Sign f s).norm = f.norm ∧ (Sign f s).decimals = f.decimals ∧
    (Sign f s).len = f.len := by
  unfold Sign
  split <;> exact ⟨rfl, rfl, rfl⟩

/-- `Sign` restores the full invariants from the weak ones whenever its
argument is a legal sign. -/
theorem Sign_inv (f : Analysis) (s : Int) (hf : WeakInv f) (hs : s = 1 ∨ s = -1) :
    Inv (Sign f s) := by
  unfold Sign
  by_cases h1 : s = -1
  · rw [if_pos h1]
    constructor
    · exact hf.lenEq
    · exact hf.digitsOk
    · exact hf.decLt
    · simp only []
      split <;> omega
    · intro hz
      simp only []
      rw [if_pos ?_]
      exact (isInt64_zero_iff_of ⟨f.norm, 1, f.decimals, f.len⟩ hf.lenEq hf.decLt
        hf.headOk rfl).mpr hz
    · exact hf.headOk
  · rw [if_neg h1]
    have hs1 : s = 1 := by tauto
    subst hs1
    exact ⟨hf.lenEq, hf.digitsOk, hf.decLt, Or.inl rfl, fun _ => rfl, hf.headOk⟩

/-- `Sign` on a nonzero value stores exactly the requested sign. -/
theorem Sign_of_nonzero (f : Analysis) (s : Int) (hf : WeakInv f)
    (hnz : valN f.norm ≠ 0) :
    Sign f s = { f with sign := s } := by
  unfold Sign
  by_cases h1 : s = -1
  · rw [if_pos h1]
    have : IsInt64 ⟨f.norm, 1, f.decimals, f.len⟩ 0 = false := by
      rcases hIs : IsInt64 ⟨f.norm, 1, f.decimals, f.len⟩ 0 with _ | _
      · rfl
      · exact absurd ((isInt64_zero_iff_of ⟨f.norm, 1, f.decimals, f.len⟩ hf.lenEq
          hf.decLt hf.headOk rfl).mp hIs) hnz
    simp only [this]
    simp [h1]
  · rw [if_neg h1]

theorem headI_append_left (l t : List Nat) (h : l ≠ []) :
    (l ++ t).headI = l.headI := by
  cases l with
  | nil => exact absurd rfl h
  | cons d r => rfl

theorem headI_take (l : List Nat) (k : Nat) (h : 1 ≤ k) :
    (l.take k).headI = l.headI := by
  cases l with
  | nil => simp
  | cons d r =>
      cases k with
      | zero => omega
      | succ m => simp [List.take_succ_cons]

/-- `SetDecimals` restores the invariants from the weak ones. -/
theorem SetDecimals_inv (f : Analysis) (n : Nat) (hf : WeakInv f) :
    Inv (SetDecimals f n) := by
  unfold SetDecimals
  by_cases h1 : n = f.decimals
  · rw [if_pos h1]
    exact Sign_inv f f.sign hf hf.signOk
  · rw [if_neg h1]
    by_cases h2 : n > f.decimals
    · rw [if_pos h2]
      apply Sign_inv _ _ ?_ hf.signOk
      have hlen := hf.lenEq
      have hdec := hf.decLt
      constructor
      · simp
      · intro d hd
        rcases List.mem_append.mp hd with hmem | hmem
        · exact hf.digitsOk d hmem
        · rw [List.eq_of_mem_replicate hmem]
          norm_num
      · simp only [List.length_append, List.length_replicate]
        omega
      · exact hf.signOk
      · intro hgt
        simp only [List.length_append, List.length_replicate] at hgt
        rw [headI_append_left]
        · apply hf.headOk
          omega
        · intro hc
          rw [hc] at hlen
          simp at hlen
          omega
    · rw [if_neg h2]
      apply Sign_inv _ _ ?_ hf.signOk
      have hlen := hf.lenEq
      have hdec := hf.decLt
      have hk : f.len - f.decimals + n ≤ f.norm.length := by omega
      have htlen : (f.norm.take (f.len - f.decimals + n)).length
          = f.len - f.decimals + n := by
        rw [List.length_take]
        omega
      constructor
      · simp
      · intro d hd
        exact hf.digitsOk d (List.take_subset _ _ hd)
      · simp only []
        rw [htlen]
        omega
      · exact hf.signOk
      · simp only []
        intro hgt
        rw [htlen] at hgt
        rw [headI_take _ _ (by omega)]
        apply hf.headOk
        omega

/-- `Mul10` preserves the invariants for every nonzero value whose shift
either clears the decimals (`decimals ≤ n`, the library-internal use) or
starts from a nonzero leading digit.  (On a zero value the trim loop can
empty the buffer, and on `n < decimals` with leading digit `0` a
redundant leading zero survives — see the C5 counterexample.) -/
theorem Mul10_inv (f : Analysis) (n : Nat) (hf : Inv f)
    (hnz : valN f.norm ≠ 0) (hcond : f.decimals ≤ n ∨ f.norm.headI ≠ 0) :
    Inv (Mul10 f n) := by
  unfold Mul10
  by_cases h1 : (f.decimals : Int) - n > 0
  · rw [if_pos h1]
    have hhead : f.norm.headI ≠ 0 := by
      rcases hcond with h | h
      · omega
      · exact h
    exact ⟨hf.lenEq, hf.digitsOk, by have := hf.decLt; simp only []; omega,
      hf.signOk, fun hz => absurd hz hnz, fun _ => hhead⟩
  · rw [if_neg h1]
    have hlen := hf.lenEq
    have hnz1 : valN (f.norm ++ List.replicate (n - f.decimals) 0) ≠ 0 := by
      rw [valN_append, valN_replicate_zero, Nat.add_zero, List.length_replicate]
      intro hc
      rcases Nat.mul_eq_zero.mp hc with h | h
      · exact hnz h
      · have := Nat.pos_pow_of_pos (n - f.decimals) (show 0 < 10 by norm_num)
        omega
    have hlen1 : (f.norm ++ List.replicate (n - f.decimals) 0).length
        = f.len + (n - f.decimals) := by
      simp [hlen]
    have hdig1 : DigitsOk (f.norm ++ List.replicate (n - f.decimals) 0) := by
      intro d hd
      rcases List.mem_append.mp hd with h | h
      · exact hf.digitsOk d h
      · rw [List.eq_of_mem_replicate h]
        norm_num
    set nb := f.norm ++ List.replicate (n - f.decimals) 0 with hnb
    set t := trimCount nb (f.len + (n - f.decimals)) with ht
    have htlen : t ≤ nb.length := by
      rw [ht]
      exact trimCount_le_length _ _
    have htval : valN (nb.drop t) = valN nb := by
      rw [ht, ← hlen1]
      exact trimCount_val _ _
    have htlt : t < nb.length := by
      rcases Nat.lt_or_ge t nb.length with h | h
      · exact h
      · exfalso
        have hdrop : nb.drop t = [] := List.drop_eq_nil_of_le (by omega)
        rw [hdrop] at htval
        exact hnz1 (by rw [← htval, valN_nil])
    have hhead1 : (nb.drop t).headI ≠ 0 := by
      have hb : t < f.len + (n - f.decimals) := by
        rw [← hlen1]
        exact htlt
      rcases trimCount_head nb (f.len + (n - f.decimals)) (by rw [← ht] at *; omega)
        with hnil | hh
      · exfalso
        rw [← ht] at hnil
        rw [hnil] at htval
        exact hnz1 (by rw [← htval, valN_nil])
      · rw [← ht] at hh
        exact hh
    have hgoal : ∀ (res : Analysis),
        res = ⟨nb.drop t, f.sign, 0, f.len + (n - f.decimals) - t⟩ → Inv res := by
      rintro res rfl
      refine ⟨?_, ?_, ?_, hf.signOk, ?_, ?_⟩
      · simp only [List.length_drop]
        omega
      · exact fun d hd => hdig1 d (List.drop_subset _ _ hd)
      · simp only []
        omega
      · intro hz
        rw [htval] at hz
        exact absurd hz hnz1
      · intro _
        exact hhead1
    by_cases h2 : t > 0
    · rw [if_pos h2]
      exact hgoal _ rfl
    · rw [if_neg h2]
      have ht0 : t = 0 := by omega
      apply hgoal
      rw [ht0]
      simp

/-- `Div10` preserves the invariants. -/
theorem Div10_inv (f : Analysis) (n : Nat) (hf : Inv f) : Inv (Div10 f n) := by
  unfold Div10
  have hlen := hf.lenEq
  have hdec := hf.decLt
  by_cases h1 : f.decimals + n ≥ f.len
  · rw [if_pos h1]
    refine ⟨?_, ?_, ?_, hf.signOk, ?_, ?_⟩
    · simp only [List.length_append, List.length_replicate]
      omega
    · intro d hd
      rcases List.mem_append.mp hd with h | h
      · rw [List.eq_of_mem_replicate h]
        norm_num
      · exact hf.digitsOk d h
    · simp only [List.length_replicate]
      omega
    · intro hz
      rw [valN_replicate_zero_append] at hz
      exact hf.zeroSign hz
    · intro hgt
      simp only [List.length_replicate] at hgt
      omega
  · rw [if_neg h1]
    refine ⟨hlen, hf.digitsOk, by simp only []; omega, hf.signOk, hf.zeroSign, ?_⟩
    intro hgt
    simp only [] at hgt
    apply hf.headOk
    omega

/-- `Pow10` produces an invariant-satisfying value for every exponent. -/
theorem Pow10_inv (n : Int) : Inv (Pow10 n) := by
  unfold Pow10
  by_cases h1 : n < 0
  · rw [if_pos h1]
    apply Div10_inv
    decide
  · rw [if_neg h1]
    refine ⟨?_, ?_, ?_, Or.inl rfl, ?_, ?_⟩
    · simp
    · intro d hd
      rcases List.mem_cons.mp hd with h | h
      · omega
      · rw [List.eq_of_mem_replicate h]
        norm_num
    · simp only []
      omega
    · intro _
      rfl
    · intro _
      simp

theorem all_zero_iff_valN (l : List Nat) :
    (l.all (fun d => d = 0)) = true ↔ valN l = 0 := by
  rw [List.all_eq_true, valN_eq_zero_iff]
  constructor
  · intro h
    apply List.eq_replicate_of_mem
    intro b hb
    simpa using h b hb
  · intro h b hb
    rw [h] at hb
    simpa using List.eq_of_mem_replicate hb

/-- `Frac` preserves the invariants. -/
theorem Frac_inv (f : Analysis) (hf : Inv f) : Inv (Frac f) := by
  unfold Frac
  have hlen := hf.lenEq
  have hdec := hf.decLt
  rw [if_pos (by omega)]
  refine ⟨by simp, ?_, ?_, ?_, ?_, ?_⟩
  · intro d hd
    rcases List.mem_cons.mp hd with h | h
    · omega
    · exact hf.digitsOk d (List.drop_subset _ _ h)
  · simp only [List.length_cons, List.length_drop]
    omega
  · simp only []
    split
    · exact Or.inl rfl
    · exact hf.signOk
  · intro hz
    simp only [] at hz ⊢
    rw [if_pos ((all_zero_iff_valN _).mpr hz)]
  · intro hgt
    simp only [List.length_cons, List.length_drop] at hgt
    omega

/-- `Trunc` preserves the invariants (for the non-panicking, non-negative
decimal-place targets representable here). -/
theorem Trunc_inv (f : Analysis) (dp : Nat) (hf : Inv f) : Inv (Trunc f dp) := by
  unfold Trunc
  apply SetDecimals_inv
  have hlen := hf.lenEq
  have hdec := hf.decLt
  have hknorm : (f.norm.take (f.len - f.decimals) ++ List.replicate f.decimals 0).length
      = f.len := by
    simp only [List.length_append, List.length_take, List.length_replicate]
    omega
  refine ⟨?_, ?_, ?_, hf.signOk, ?_⟩
  · simp only []
    omega
  · intro d hd
    rcases List.mem_append.mp hd with h | h
    · exact hf.digitsOk d (List.take_subset _ _ h)
    · rw [List.eq_of_mem_replicate h]
      norm_num
  · simp only []
    omega
  · intro hgt
    simp only [] at hgt
    rw [headI_append_left, headI_take _ _ (by omega)]
    · apply hf.headOk
      omega
    · intro hc
      have := congrArg List.length hc
      simp only [List.length_take, List.length_nil] at this
      omega

/-- `Sign` with the receiver's own (legal) sign restores the invariants. -/
theorem Sign_self_inv (g : Analysis) (hg : WeakInv g) : Inv (Sign g g.sign) :=
  Sign_inv g g.sign hg hg.signOk

/-- The rounding increment `SetInt64(1).Div10(n)` is `10^-n`. -/
theorem div10_one (n : Nat) :
    Div10 (setInt 1) n = ⟨List.replicate n 0 ++ [1], 1, n, n + 1⟩ := by
  have h1 : setInt 1 = ⟨[1], 1, 0, 1⟩ := rfl
  rw [h1]
  unfold Div10
  by_cases hn : n = 0
  · subst hn
    decide
  · rw [if_pos (by simp only []; omega)]
    simp only [Analysis.mk.injEq, List.length_replicate]
    refine ⟨?_, trivial, by omega, by omega⟩
    rw [show n - (1 - 0) + 1 = n from by omega]

/-- The signed rounding increment used by `Round`. -/
theorem round_c_eq (n : Nat) (s : Int) :
    Sign (Div10 (setInt 1) n) s = ⟨List.replicate n 0 ++ [1], s, n, n + 1⟩ := by
  have hw : WeakInv ⟨List.replicate n 0 ++ [1], 1, n, n + 1⟩ := by
    refine ⟨by simp, ?_, Nat.lt_succ_self n, Or.inl rfl, ?_⟩
    · intro d hd
      rcases List.mem_append.mp hd with h | h
      · rw [List.eq_of_mem_replicate h]
        norm_num
      · rw [List.mem_singleton.mp h]
        norm_num
    · intro hgt
      simp only [] at hgt
      omega
  have hnz : valN (⟨List.replicate n 0 ++ [1], 1, n, n + 1⟩ : Analysis).norm ≠ 0 := by
    simp only []
    rw [valN_replicate_zero_append, valN_singleton]
    norm_num
  rw [div10_one, Sign_of_nonzero _ _ hw hnz]

/-- `Round` preserves the invariants: the truncated prefix keeps the
operand's sign, the half-up increment `±10^-n` carries that same sign, so
`Add` takes the same-sign magnitude-addition path, and the final `Sign`
call re-canonicalizes a zero. -/
theorem Round_inv (f : Analysis) (n : Nat) (hf : Inv f) : Inv (Round f n) := by
  unfold Round
  by_cases h1 : n < f.decimals
  · rw [if_pos h1]
    simp only []
    have hlen := hf.lenEq
    have hdec := hf.decLt
    have hw1 : WeakInv ⟨f.norm.take (f.len - f.decimals + n), f.sign, n,
        f.len - (f.decimals - n)⟩ := by
      refine ⟨?_, ?_, ?_, hf.signOk, ?_⟩
      · simp only [List.length_take]
        omega
      · intro d hd
        exact hf.digitsOk d (List.take_subset _ _ hd)
      · simp only []
        omega
      · intro hgt
        simp only [] at hgt
        rw [headI_take _ _ (by omega)]
        apply hf.headOk
        omega
    apply Sign_self_inv
    split
    · rw [round_c_eq]
      have hwc : WeakInv ⟨List.replicate n 0 ++ [1], f.sign, n, n + 1⟩ := by
        refine ⟨by simp, ?_, Nat.lt_succ_self n, hf.signOk, ?_⟩
        · intro d hd
          rcases List.mem_append.mp hd with h | h
          · rw [List.eq_of_mem_replicate h]
            norm_num
          · rw [List.mem_singleton.mp h]
            norm_num
        · intro hgt
          simp only [] at hgt
          omega
      unfold Add
      by_cases hz1 : IsInt64 ⟨f.norm.take (f.len - f.decimals + n), f.sign, n,
          f.len - (f.decimals - n)⟩ 0 = true
      · rw [if_pos hz1]
        exact hwc
      · rw [if_neg hz1]
        have hz2 : ¬ (IsInt64 ⟨List.replicate n 0 ++ [1], f.sign, n, n + 1⟩ 0 = true) := by
          intro hc
          have hnd : natDigits (Int.natAbs 0) = [0] := rfl
          simp only [IsInt64, setIntWithDecimals, hnd, Bool.and_eq_true,
            beq_iff_eq] at hc
          have hval := congrArg valN hc.2
          rw [valN_replicate_zero_append, valN_singleton, valN_append,
            valN_singleton, valN_replicate_zero] at hval
          simp at hval
        rw [if_neg hz2, if_pos (by simp)]
        obtain ⟨hval2, hsgn2, hdec2, hlen2, hdig2, hdlt2, hhd2⟩ :=
          addMag_spec ⟨f.norm.take (f.len - f.decimals + n), f.sign, n,
            f.len - (f.decimals - n)⟩ ⟨List.replicate n 0 ++ [1], f.sign, n, n + 1⟩
            hw1.lenEq hwc.lenEq hw1.digitsOk hwc.digitsOk
        refine ⟨hlen2, hdig2, ?_, ?_, ?_⟩
        · rw [hdec2]
          exact hdlt2
        · rw [hsgn2]
          exact hf.signOk
        · rw [hdec2]
          exact hhd2
    · exact hw1
  · rw [if_neg h1]
    exact hf

/-- `Neg` preserves the invariants: the flipped sign is again legal. -/
theorem Neg_inv (f : Analysis) (hf : Inv f) : Inv (Neg f) := by
  unfold Neg
  apply Sign_inv f _ hf.weak
  rcases hf.signOk with h | h <;> rw [h] <;> norm_num

/-- `Abs` preserves the invariants. -/
theorem Abs_inv (f : Analysis) (hf : Inv f) : Inv (Abs f) :=
  Sign_inv f 1 hf.weak (Or.inl rfl)

/-- Observable destination value of a `divmod` call: the source writes
the receiver only on success; the error paths return before any
mutation. -/
def divmodDest (fIn rIn a b : Analysis) (bTrunc : Bool) (dp mx : Int) : Analysis :=
  match divmod fIn rIn a b bTrunc dp mx with
  | .ok v => v.1
  | .error _ => fIn

/-- Observable remainder out-parameter of a `divmod` call. -/
def divmodRem (fIn rIn a b : Analysis) (bTrunc : Bool) (dp mx : Int) : Analysis :=
  match divmod fIn rIn a b bTrunc dp mx with
  | .ok v => v.2.1
  | .error _ => rIn

/-! ### Formatter-analyzer roundtrip -/

/-- Character-classification facts about a formatted decimal digit. -/
theorem digitChar_facts (d : Nat) (hd : d < 10) :
    visible (digitChar d) = true ∧ ¬(digitChar d = '+' ∨ digitChar d = '-') ∧
    ¬ digitChar d = '.' ∧ ¬(digitChar d = 'E' ∨ digitChar d = 'e') ∧
    isDigitChar (digitChar d) = true ∧ (digitChar d).toNat - 48 = d ∧
    ((digitChar d = '0') ↔ d = 0) := by
  interval_cases d <;>
    exact ⟨by decide, by decide, by decide, by decide, by decide, by decide, by decide⟩

theorem exbind_ok {α β : Type} (a : α) (f : α → Except String β) :
    (Except.ok a >>= f) = f a := rfl

/-- The analyzer's step on a digit character before any exponent marker:
append the digit unless it is a skippable leading zero. -/
theorem astep_digit (st : AState) (d : Nat) (hd : d < 10) (hE : st.eFound = false) :
    astep st (digitChar d) =
      if st.decimalPointFound ∨ ¬ d = 0 ∨ (st.digitFound ∧ st.nonZeroDigitFound) then
        .ok { st with
              normBuf := st.normBuf ++ [d],
              len := st.len + 1,
              decimals := if st.decimalPointFound then st.decimals + 1 else st.decimals,
              nonZeroDigitFound := if ¬ d = 0 then true else st.nonZeroDigitFound,
              digitFound := true }
      else .ok { st with digitFound := true } := by
  obtain ⟨h1, h2, h3, h4, h5, h6, h7⟩ := digitChar_facts d hd
  unfold astep
  rw [if_neg (by simp [h1]), if_neg h2, if_neg h3, if_neg h4, if_pos h5,
    if_pos (by simp [hE]), h6]
  simp only [ne_eq, h7]

/-- Digit run before the decimal point, after a nonzero digit has been
seen: every digit is appended verbatim. -/
theorem foldlM_digits_int (ds : List Nat) (hds : DigitsOk ds) :
    ∀ st : AState, st.eFound = false → st.decimalPointFound = false →
      st.digitFound = true → st.nonZeroDigitFound = true →
      List.foldlM astep st (ds.map digitChar) =
        .ok { st with normBuf := st.normBuf ++ ds, len := st.len + ds.length } := by
  induction ds with
  | nil =>
      intro st _ _ _ _
      simp only [List.map_nil, List.foldlM_nil, List.append_nil, Nat.add_zero]
      rfl
  | cons d t ih =>
      intro st hE hdp hdf hnz
      have hd : d < 10 := hds d (List.mem_cons_self d t)
      have ht : DigitsOk t := fun y hy => hds y (List.mem_cons_of_mem d hy)
      obtain ⟨sg, sf, dpf, ef, es, esf, df, nzf, nb, eb, dec, ln⟩ := st
      simp only [] at hE hdp hdf hnz
      subst hE
      subst hdp
      subst hdf
      subst hnz
      rw [List.map_cons, List.foldlM_cons, astep_digit _ d hd rfl,
        if_pos (Or.inr (Or.inr ⟨rfl, rfl⟩)), exbind_ok]
      simp only [ite_self]
      rw [ih ht _ rfl rfl rfl rfl]
      simp [List.append_assoc]
      omega

/-- Digit run after the decimal point: every digit is appended, the
decimal counter advances, and the nonzero flag records any nonzero
digit. -/
theorem foldlM_digits_frac (ds : List Nat) (hds : DigitsOk ds) :
    ∀ st : AState, st.eFound = false → st.decimalPointFound = true →
      st.digitFound = true →
      List.foldlM astep st (ds.map digitChar) =
        .ok { st with
              normBuf := st.normBuf ++ ds
              len := st.len + ds.length
              decimals := st.decimals + ds.length
              nonZeroDigitFound :=
                st.nonZeroDigitFound || ds.any (fun y => !(y == 0)) } := by
  induction ds with
  | nil =>
      intro st _ _ _
      simp only [List.map_nil, List.foldlM_nil, List.append_nil, Nat.add_zero,
        List.any_nil, Bool.or_false]
      rfl
  | cons d t ih =>
      intro st hE hdp hdf
      have hd : d < 10 := hds d (List.mem_cons_self d t)
      have ht : DigitsOk t := fun y hy => hds y (List.mem_cons_of_mem d hy)
      obtain ⟨sg, sf, dpf, ef, es, esf, df, nzf, nb, eb, dec, ln⟩ := st
      simp only [] at hE hdp hdf
      subst hE
      subst hdp
      subst hdf
      rw [List.map_cons, List.foldlM_cons, astep_digit _ d hd rfl,
        if_pos (Or.inl rfl), exbind_ok, ih ht _ rfl rfl rfl]
      by_cases hd0 : d = 0
      · subst hd0
        simp [List.append_assoc]
        omega
      · simp [hd0, List.append_assoc]
        omega

/-- The analyzer's step on the decimal point (first point, no exponent):
set the flag, inserting the explicit `0` integer digit when no nonzero
digit has been seen. -/
theorem astep_point (st : AState) (hdp : st.decimalPointFound = false)
    (hE : st.eFound = false) :
    astep st '.' =
      if ¬ st.nonZeroDigitFound then
        .ok { st with decimalPointFound := true,
                      normBuf := st.normBuf ++ [0],
                      len := st.len + 1 }
      else .ok { st with decimalPointFound := true } := by
  unfold astep
  rw [if_neg (by decide), if_neg (by decide), if_pos rfl, if_neg (by simp [hdp]),
    if_neg (by simp [hE])]

/-- A digit list of nonzero value contains a nonzero digit. -/
theorem any_nonzero_of_valN (t : List Nat) (h : valN t ≠ 0) :
    t.any (fun y => !(y == 0)) = true := by
  rcases hA : t.any (fun y => !(y == 0)) with _ | _
  · exfalso
    apply h
    rw [← all_zero_iff_valN, List.all_eq_true]
    intro y hy
    have hy2 := List.any_eq_false.mp hA y hy
    simpa using hy2
  · rfl

theorem expure_bind {α β : Type} (a : α) (f : α → Except String β) :
    ((pure a : Except String α) >>= f) = f a := rfl

/-- `analyzeFinish` on an exponent-free state whose nonzero flag is set:
no zero-fix, sign kept. -/
theorem analyzeFinish_noE_nz (sg : Int) (sf dpf : Bool) (nb : List Nat)
    (dec ln : Nat) (hln : ¬ ln = 0) :
    analyzeFinish ⟨sg, sf, dpf, false, 1, false, true, true, nb, [], dec, ln⟩ =
      .ok ⟨nb, sg, dec, ln⟩ := by
  simp [analyzeFinish, hln]

/-- `analyzeFinish` on an exponent-free positive state: the sign fix is a
no-op. -/
theorem analyzeFinish_noE_one (sf dpf nz : Bool) (nb : List Nat)
    (dec ln : Nat) (hln : ¬ ln = 0) :
    analyzeFinish ⟨1, sf, dpf, false, 1, false, true, nz, nb, [], dec, ln⟩ =
      .ok ⟨nb, 1, dec, ln⟩ := by
  simp [analyzeFinish, hln]

/-- `analyzeFinish` after the lone digit `'0'` was skipped: the
empty-buffer fix restores the canonical zero. -/
theorem analyzeFinish_zeroBuf (sf : Bool) :
    analyzeFinish ⟨1, sf, false, false, 1, false, true, false, [], [], 0, 0⟩ =
      .ok ⟨[0], 1, 0, 1⟩ := by
  cases sf <;> decide

/-- Running the analyzer over the formatted digit body (integer digits,
then an optional point and the fractional digits) from a fresh
post-sign-prefix state reconstructs the stored representation: a skipped
leading zero is restored either by the decimal-point handler or by the
post-loop empty-buffer fix. -/
theorem analyze_body (nm : List Nat) (dec ln : Nat) (sg : Int) (sf : Bool)
    (hlen : ln = nm.length) (hdig : DigitsOk nm) (hdec : dec < ln)
    (hhead : 1 < ln - dec → nm.headI ≠ 0)
    (hzs : valN nm = 0 → sg = 1) (hsg : sg = 1 ∨ sg = -1) :
    (List.foldlM astep ⟨sg, sf, false, false, 1, false, false, false, [], [], 0, 0⟩
        ((nm.take (ln - dec)).map digitChar ++
          (if 0 < dec then '.' :: (nm.drop (ln - dec)).map digitChar else [])) >>=
      analyzeFinish) = .ok ⟨nm, sg, dec, ln⟩ := by
  cases nm with
  | nil =>
      exfalso
      simp only [List.length_nil] at hlen
      omega
  | cons d₀ t =>
  obtain ⟨k, hk⟩ : ∃ k, ln - dec = k + 1 := ⟨ln - dec - 1, by omega⟩
  have hlen' : ln = t.length + 1 := by simpa using hlen
  have hkt : k ≤ t.length := by omega
  have ht : DigitsOk t := fun y hy => hdig y (List.mem_cons_of_mem d₀ hy)
  rw [hk, List.take_succ_cons, List.drop_succ_cons]
  by_cases hd₀ : d₀ = 0
  · -- leading zero: single skipped integer digit
    have hk0 : k = 0 := by
      by_contra hkne
      refine hhead (by omega) ?_
      subst hd₀
      simp
    subst hk0
    subst hd₀
    have hdt : dec = t.length := by omega
    rw [List.take_zero, List.drop_zero, List.map_cons, List.map_nil,
      List.cons_append, List.nil_append, List.foldlM_cons,
      astep_digit _ 0 (by norm_num) rfl, if_neg (by simp), exbind_ok]
    simp only []
    by_cases hdp : 0 < dec
    · rw [if_pos hdp, List.foldlM_cons, astep_point _ rfl rfl, if_pos (by simp),
        exbind_ok]
      simp only [List.nil_append]
      rw [foldlM_digits_frac t ht _ rfl rfl rfl, exbind_ok]
      simp only [List.singleton_append, Bool.false_or]
      rcases hsg with rfl | rfl
      · rw [analyzeFinish_noE_one sf true _ _ _ _ (by omega)]
        simp only [Except.ok.injEq, Analysis.mk.injEq]
        refine ⟨trivial, trivial, by omega, by omega⟩
      · have hnzv : valN t ≠ 0 := by
          intro hz
          have hzz : valN (0 :: t) = 0 := by
            rw [valN_cons, hz]
            ring
          have h1 := hzs hzz
          norm_num at h1
        rw [any_nonzero_of_valN t hnzv,
          analyzeFinish_noE_nz (-1) sf true _ _ _ (by omega)]
        simp only [Except.ok.injEq, Analysis.mk.injEq]
        refine ⟨trivial, trivial, by omega, by omega⟩
    · -- no decimals: the whole value is the canonical zero
      rw [if_neg hdp, List.foldlM_nil, expure_bind]
      have ht0 : t = [] := by
        have h0 : t.length = 0 := by omega
        exact List.length_eq_zero.mp h0
      subst ht0
      have hsg1 : sg = 1 := hzs (by decide)
      subst hsg1
      rw [analyzeFinish_zeroBuf]
      have hln1 : ln = 1 := by omega
      have hdc0 : dec = 0 := by omega
      rw [hln1, hdc0]
  · -- nonzero leading digit: every integer digit is appended verbatim
    rw [List.map_cons, List.cons_append, List.foldlM_cons,
      astep_digit _ d₀ (hdig d₀ (List.mem_cons_self d₀ t)) rfl,
      if_pos (Or.inr (Or.inl hd₀)), exbind_ok]
    simp only [List.nil_append]
    rw [if_pos hd₀, if_neg (show ¬(false = true) from by simp)]
    rw [List.foldlM_append,
      foldlM_digits_int (t.take k) (fun y hy => ht y (List.take_subset k t hy))
        _ rfl rfl rfl rfl, exbind_ok]
    simp only [List.singleton_append]
    rw [List.length_take, Nat.min_eq_left hkt]
    by_cases hdp : 0 < dec
    · rw [if_pos hdp, List.foldlM_cons, astep_point _ rfl rfl, if_neg (by simp),
        exbind_ok]
      simp only []
      rw [foldlM_digits_frac (t.drop k) (fun y hy => ht y (List.drop_subset k t hy))
        _ rfl rfl rfl, exbind_ok]
      simp only [Bool.true_or]
      rw [analyzeFinish_noE_nz sg sf true _ _ _
        (by simp only [List.length_drop]; omega)]
      simp only [Except.ok.injEq, Analysis.mk.injEq]
      refine ⟨?_, trivial, ?_, ?_⟩
      · rw [List.cons_append, List.take_append_drop]
      · simp only [List.length_drop]
        omega
      · simp only [List.length_drop]
        omega
    · rw [if_neg hdp, List.foldlM_nil, expure_bind]
      have hkl : k = t.length := by omega
      subst hkl
      rw [List.take_length]
      rw [analyzeFinish_noE_nz sg sf false _ _ _ (by omega)]
      simp only [Except.ok.injEq, Analysis.mk.injEq]
      refine ⟨trivial, trivial, by omega, by omega⟩

theorem dropWhile_append_all {p : Char → Bool} (l₁ l₂ : List Char)
    (h : ∀ c ∈ l₁, p c = true) :
    List.dropWhile p (l₁ ++ l₂) = List.dropWhile p l₂ := by
  induction l₁ with
  | nil => rw [List.nil_append]
  | cons c tl ih =>
      rw [List.cons_append,
        List.dropWhile_cons_of_pos (h c (List.mem_cons_self c tl)),
        ih (fun y hy => h y (List.mem_cons_of_mem c hy))]

/-! ### Repetend-length bookkeeping of the division loop -/

/-- Loop invariant for the repetend bookkeeping: once any digit has been
emitted the decimal counter stays below the result length, and before the
first emission the remainder map is still empty. -/
def LoopInv (st : LoopSt) : Prop :=
  st.decimals < st.result.length ∨
    (st.result = [] ∧ st.decimals = 0 ∧ st.remMap = [])

/-- At every exit of the long-division loop with a detected repetend
(`repInd ≥ 0`), the decimal count is below the result length, and below
the positive decimal-place goal. -/
theorem divLoop_rep_bounds (bC : Analysis) (cmpInt cmpLen : Nat) (goal mx : Int) :
    ∀ (fuel : Nat) (st : LoopSt) (out : LoopOut),
      LoopInv st → (0 < goal → (st.decimals : Int) ≤ goal) →
      divLoop bC cmpInt cmpLen goal mx fuel st = some out →
      0 ≤ out.repInd →
      out.decimals < out.result.length ∧ (0 < goal → (out.decimals : Int) < goal) := by
  intro fuel
  induction fuel with
  | zero =>
      intro st out _ _ hout
      simp [divLoop] at hout
  | succ k ih =>
      intro st out hI hg hout hrep
      rw [divLoop] at hout
      by_cases hexit :
          ((if st.i ≥ st.aBuf.length then true else st.bDecimals) ∧ st.divPart = [0]) ∨
          (goal > 0 ∧ (st.decimals : Int) = goal)
      · rw [if_pos hexit] at hout
        injection hout with hout
        rw [← hout] at hrep
        simp at hrep
      · rw [if_neg hexit] at hout
        rcases hlook : (if (if st.i ≥ st.aBuf.length then true else st.bDecimals) then
            lookupMap st.remMap st.divPart else none) with _ | ind
        · simp only [hlook] at hout
          set bD := (if st.i ≥ st.aBuf.length then true else st.bDecimals) with hbD
          set decimals' := if bD then st.decimals + 1 else st.decimals with hdec
          have hdlt : 0 < goal → (decimals' : Int) ≤ goal := by
            intro hgoal
            have h1 := hg hgoal
            have h2 : (st.decimals : Int) ≠ goal := by
              intro hc
              exact hexit (Or.inr ⟨hgoal, hc⟩)
            rw [hdec]
            split <;> push_cast <;> omega
          by_cases hemit :
              (stepQuotient (if st.divPart = [0] then
                  [if st.i ≥ st.aBuf.length then 0 else st.aBuf.getD st.i 0]
                else st.divPart ++ [if st.i ≥ st.aBuf.length then 0 else st.aBuf.getD st.i 0])
                bC cmpInt cmpLen).1 > 0 ∨ st.result ≠ [] ∨ bD = true
          · rw [if_pos hemit] at hout
            by_cases hcap : (decimals' : Int) ≥ mx
            · rw [if_pos hcap] at hout
              injection hout with hout
              rw [← hout] at hrep
              simp at hrep
            · rw [if_neg hcap] at hout
              refine ih _ out ?_ hdlt hout hrep
              simp only [LoopInv]
              left
              simp only [List.length_append, List.length_cons, List.length_nil]
              have hmid : (if bD ∧ st.result = [] then [0] else ([] : List Nat)).length ≤ 1 := by
                split <;> simp
              have hd1 : decimals' ≤ st.decimals + 1 := by
                rw [hdec]
                split <;> omega
              rcases hI with hlt | ⟨hres, hdec0, -⟩
              · omega
              · have hd0 : st.decimals = 0 := hdec0
                rcases hbv : bD with _ | _
                · have hd2 : decimals' = st.decimals := by
                    rw [hdec, hbv]
                    simp
                  have hmid0 : (if (false : Bool) = true ∧ st.result = []
                      then [0] else ([] : List Nat)).length = 0 := by
                    rw [if_neg (by simp)]
                    rfl
                  omega
                · have hd2 : decimals' = st.decimals + 1 := by
                    rw [hdec, hbv]
                    simp
                  have hmid1 : (if (true : Bool) = true ∧ st.result = []
                      then [0] else ([] : List Nat)).length = 1 := by
                    rw [if_pos ⟨rfl, hres⟩]
                    rfl
                  omega
          · rw [if_neg hemit] at hout
            push_neg at hemit
            obtain ⟨hq0, hres, hbDf'⟩ := hemit
            have hbDf : bD = false := by simpa using hbDf'
            have hresE : st.result = [] := hres
            have hIempty : st.decimals = 0 ∧ st.remMap = [] := by
              rcases hI with hlt | ⟨-, h2, h3⟩
              · exfalso
                rw [hresE] at hlt
                simp at hlt
              · exact ⟨h2, h3⟩
            refine ih _ out ?_ ?_ hout hrep
            · right
              refine ⟨hresE, ?_, ?_⟩
              · rw [hdec, hbDf]
                simpa using hIempty.1
              · rw [hbDf]
                simpa using hIempty.2
            · intro hgoal
              rw [hdec, hbDf]
              simpa using hg hgoal
        · simp only [hlook] at hout
          injection hout with hout
          rw [← hout]
          constructor
          · rcases hI with hlt | ⟨-, -, hmap⟩
            · simpa using hlt
            · exfalso
              have hbD2 : (if st.i ≥ st.aBuf.length then true else st.bDecimals) = true := by
                rcases hb : (if st.i ≥ st.aBuf.length then true else st.bDecimals) with _ | _
                · rw [hb] at hlook
                  simp at hlook
                · rfl
              rw [hbD2] at hlook
              simp only [if_true] at hlook
              rw [hmap] at hlook
              simp [lookupMap] at hlook
          · intro hgoal
            have h2 : (st.decimals : Int) ≠ goal := fun hc => hexit (Or.inr ⟨hgoal, hc⟩)
            have h1 := hg hgoal
            show (st.decimals : Int) < goal
            omega

/-- The last `r` characters of a formatted value with `r` within the
stored decimal count are exactly the last `r` digit characters: the
repetend split point of `StringF` falls inside the fractional digits. -/
theorem stringWith_drop_last (f : Analysis) (fs : Bool) (r : Nat)
    (hlen : f.len = f.norm.length) (hr : 0 < r) (hrd : r ≤ f.decimals)
    (hdl : f.decimals < f.norm.length) :
    (StringWith f fs).drop ((StringWith f fs).length - r) =
      (f.norm.drop (f.norm.length - r)).map digitChar := by
  unfold StringWith
  rw [if_pos (show f.decimals > 0 from by omega)]
  set A := (if f.sign = -1 then ['-']
    else if fs ∧ ¬ IsInt64 f 0 then ['+'] else []) ++
    (f.norm.take (f.len - f.decimals)).map digitChar with hA
  set B := (f.norm.drop (f.len - f.decimals)).map digitChar with hB
  have hBlen : B.length = f.decimals := by
    rw [hB, List.length_map, List.length_drop]
    omega
  have hsplit : (A ++ '.' :: B).length - r = A.length + (1 + (f.decimals - r)) := by
    simp only [List.length_append, List.length_cons]
    omega
  rw [hsplit, ← List.drop_drop, List.drop_left,
    show 1 + (f.decimals - r) = (f.decimals - r) + 1 from by omega,
    List.drop_succ_cons, hB, ← List.map_drop, List.drop_drop,
    show f.len - f.decimals + (f.decimals - r) = f.norm.length - r from by omega]

/-! ### Claim theorems -/

/-- C1: evaluation of the analyzer at the claim's own example.  The code
parses `"1.5e1"` to digits `150` with `decimals = 0` — the value 150,
not 15: after `decimals` is decremented to `0` (no underflow), the
else-branch still appends `e - decimals = 1` zero digit.  The claim
(and the spec's folding rule) require that no zeros be appended when
`decimals` stays non-negative, which would give digits `15`. -/
theorem C1_exponent_folding_appends_zeros :
    Analyze (("1.5e1").toList) = .ok ⟨[1, 5, 0], 1, 0, 3⟩ ∧
    valN [1, 5, 0] = 150 ∧ valN [1, 5] = 15 := by
  decide

/-- C6: evaluation of `Round` at the claim's examples.  The code rounds
`"1.25"` at 1 decimal place to the two-digit value `1.3` (decimals 1) and
`"-1.55555"` to `-1.6` — the stored decimal count is cut to `n`, not
preserved, contradicting the claim, the spec's examples, and the
repository's own `TestRound` expectations (`1.30`, `-1.60000`). -/
theorem C6_round_cuts_decimals :
    (Analyze (("1.25").toList)).map (fun a => Round a 1) = .ok ⟨[1, 3], 1, 1, 2⟩ ∧
    (Analyze (("-1.55555").toList)).map (fun a => Round a 1) = .ok ⟨[1, 6], -1, 1, 2⟩ := by
  decide

/-- C2 counterexample: dividing a zero dividend by a zero divisor does
not fail.  The zero-dividend shortcut runs before the divisor test, so
`divmod` returns a zero quotient and no `DivisionByZero` error even
though the divisor's magnitude (`valN [0]`) is zero — refuting the
claim's "for every dividend, including a zero dividend". -/
theorem C2_zero_div_zero_succeeds :
    divmod ⟨[7], 1, 0, 1⟩ ⟨[8], 1, 0, 1⟩ ⟨[0], 1, 0, 1⟩ ⟨[0], 1, 0, 1⟩ false (-1) 10000
      = .ok (⟨[0], 1, 0, 1⟩, ⟨[8], 1, 0, 1⟩, 0) ∧ valN [0] = 0 := by
  decide

/-- C2 (amended): for operands satisfying the data-model invariants,
`Div`/`DivMod` (any mode and options) fail if and only if the divisor's
magnitude is zero AND the dividend's magnitude is nonzero (a zero
dividend short-circuits to a zero result even against a zero divisor);
the only failure is the `DivisionByZero` error, and on failure both the
destination and the remainder out-parameter are left unchanged. -/
theorem C2_divzero_iff_amended (fIn rIn a b : Analysis) (bTrunc : Bool) (dp mx : Int)
    (hA : Inv a) (hB : Inv b) :
    ((∃ e, divmod fIn rIn a b bTrunc dp mx = .error e) ↔
      (valN b.norm = 0 ∧ valN a.norm ≠ 0)) ∧
    (∀ e, divmod fIn rIn a b bTrunc dp mx = .error e →
      e = "Division by zero" ∧
      divmodDest fIn rIn a b bTrunc dp mx = fIn ∧
      divmodRem fIn rIn a b bTrunc dp mx = rIn) := by
  have key : (valN b.norm = 0 ∧ valN a.norm ≠ 0) →
      divmod fIn rIn a b bTrunc dp mx = .error ("Division by zero") := by
    rintro ⟨hbz, haz⟩
    have hA0 : IsInt64 a 0 = false := by
      cases hIs : IsInt64 a 0 with
      | false => rfl
      | true => exact absurd ((isInt64_zero_iff a hA).mp hIs) haz
    have hB0 : IsInt64 b 0 = true := (isInt64_zero_iff b hB).mpr hbz
    rw [divmod, if_neg (by simp [hA0]), if_pos hB0]
  have key2 : ¬ (valN b.norm = 0 ∧ valN a.norm ≠ 0) →
      ∃ v, divmod fIn rIn a b bTrunc dp mx = .ok v := by
    intro hn
    by_cases haz : valN a.norm = 0
    · have hA0 : IsInt64 a 0 = true := (isInt64_zero_iff a hA).mpr haz
      rw [divmod, if_pos hA0]
      exact ⟨_, rfl⟩
    · have hbz : valN b.norm ≠ 0 := by tauto
      have hB0 : IsInt64 b 0 = false := by
        cases hIs : IsInt64 b 0 with
        | false => rfl
        | true => exact absurd ((isInt64_zero_iff b hB).mp hIs) hbz
      exact divmod_total fIn rIn a b bTrunc dp mx hB0
  constructor
  · constructor
    · rintro ⟨e, he⟩
      by_contra hn
      obtain ⟨v, hv⟩ := key2 hn
      rw [hv] at he
      exact Except.noConfusion he
    · intro hz
      exact ⟨_, key hz⟩
  · intro e he
    have hz : valN b.norm = 0 ∧ valN a.norm ≠ 0 := by
      by_contra hn
      obtain ⟨v, hv⟩ := key2 hn
      rw [hv] at he
      exact Except.noConfusion he
    have herr := key hz
    rw [herr] at he
    injection he with he1
    refine ⟨he1.symm, ?_, ?_⟩
    · rw [divmodDest, herr]
    · rw [divmodRem, herr]

/-- C2 witness: a nonzero dividend over a zero divisor fails, per the
amended theorem instantiated at concrete invariant-satisfying inputs. -/
theorem C2_divzero_iff_amended_witness :
    Inv (⟨[1], 1, 0, 1⟩ : Analysis) ∧ Inv (⟨[0], 1, 0, 1⟩ : Analysis) ∧
    (∃ e, divmod emptyBF emptyBF ⟨[1], 1, 0, 1⟩ ⟨[0], 1, 0, 1⟩ false (-1) 10000 = .error e) :=
  ⟨by decide, by decide,
   (C2_divzero_iff_amended emptyBF emptyBF ⟨[1], 1, 0, 1⟩ ⟨[0], 1, 0, 1⟩ false (-1) 10000
     (by decide) (by decide)).1.mpr (by decide)⟩

/-- C9: the division engine is total whenever the divisor fails the
code's zero test: for every pair of operands and every combination of
the `decimalPlaces` and `maxDecimalPlaces` options (including negative
and zero caps), `divmod` returns a result — the loop exits on an exact
zero remainder, the decimal-place budget, a repeated remainder, or the
safety cap, never exhausting its fuel.  `Div` and `DivMod` are the
`bTrunc = false / true` instances. -/
theorem C9_division_terminates (fIn rIn a b : Analysis) (bTrunc : Bool) (dp mx : Int)
    (hb : IsInt64 b 0 = false) :
    ∃ v, divmod fIn rIn a b bTrunc dp mx = .ok v :=
  divmod_total fIn rIn a b bTrunc dp mx hb

/-- C9 witness: division of 2 by 3 in auto-detect mode succeeds. -/
theorem C9_division_terminates_witness :
    IsInt64 ⟨[3], 1, 0, 1⟩ 0 = false ∧
    ∃ v, divmod emptyBF emptyBF ⟨[2], 1, 0, 1⟩ ⟨[3], 1, 0, 1⟩ false (-1) 10000 = .ok v :=
  ⟨by decide,
   C9_division_terminates emptyBF emptyBF ⟨[2], 1, 0, 1⟩ ⟨[3], 1, 0, 1⟩ false (-1) 10000
     (by decide)⟩

/-- C7: dividing `"100"` by `"-0.7"` in auto-detect mode yields the value
`-142.857142` (digits `142857142`, sign `-1`, 6 decimals) with repetend
length 6, and formatting it with the default markers renders
`"-142.(857142)"`. -/
theorem C7_div_auto_repetend :
    (Analyze (("100").toList)).bind (fun a =>
      (Analyze (("-0.7").toList)).map (fun b => Div a b (-1) 10000)) =
      .ok (.ok (⟨[1, 4, 2, 8, 5, 7, 1, 4, 2], -1, 6, 9⟩, 6)) ∧
    StringF ⟨[1, 4, 2, 8, 5, 7, 1, 4, 2], -1, 6, 9⟩ 6 (("(").toList) ((")").toList) false
      = ("-142.(857142)").toList := by
  decide


/-- C5 counterexample: `Mul10` does not preserve the invariants.  On the
canonical zero `0` (digits `[0]`, one digit), `Mul10 1` appends a zero
and then trims *both* leading zeros, leaving an empty digit buffer of
length `0` — violating I1 (`length ≥ 1`).  On `0.05` with `n = 1` less
than `decimals = 2`, the shift-within-decimals branch just decrements
`decimals`, leaving digits `005` with one decimal — the two leading
zeros of the integer portion `00` violate I4 (no redundant leading
zeros).  Both inputs satisfy the invariants, and the second is the
analyzer's own parse of `"0.05"`. -/
theorem C5_mul10_breaks_invariants :
    Inv (⟨[0], 1, 0, 1⟩ : Analysis) ∧
    Mul10 ⟨[0], 1, 0, 1⟩ 1 = ⟨[], 1, 0, 0⟩ ∧
    ¬ Inv (Mul10 ⟨[0], 1, 0, 1⟩ 1) ∧
    Analyze (("0.05").toList) = .ok ⟨[0, 0, 5], 1, 2, 3⟩ ∧
    Inv (⟨[0, 0, 5], 1, 2, 3⟩ : Analysis) ∧
    Mul10 ⟨[0, 0, 5], 1, 2, 3⟩ 1 = ⟨[0, 0, 5], 1, 1, 3⟩ ∧
    ¬ Inv (Mul10 ⟨[0, 0, 5], 1, 2, 3⟩ 1) := by
  decide

/-- C5 (amended): every public mutator except `Mul10` — `Sign` with a
legal sign argument, `Neg`, `Abs`, `SetDecimals`, `Div10`, `Pow10`,
`Frac`, `Trunc`, `Round` — preserves the data-model invariants I1–I5;
`Mul10` preserves them only for a value of nonzero magnitude whose shift
clears the decimals (`decimals ≤ n`) or whose leading digit is nonzero
(on a zero value it can empty the digit buffer, and on
`n < decimals` with a leading zero it leaves a redundant leading zero —
see the counterexample). -/
theorem C5_mutators_preserve_invariants_amended (f : Analysis) (hf : Inv f)
    (s : Int) (hs : s = 1 ∨ s = -1) (n : Nat) (m : Int) :
    Inv (Sign f s) ∧ Inv (Neg f) ∧ Inv (Abs f) ∧ Inv (SetDecimals f n) ∧
    Inv (Div10 f n) ∧ Inv (Pow10 m) ∧ Inv (Frac f) ∧ Inv (Trunc f n) ∧
    Inv (Round f n) ∧
    (valN f.norm ≠ 0 → (f.decimals ≤ n ∨ f.norm.headI ≠ 0) → Inv (Mul10 f n)) :=
  ⟨Sign_inv f s hf.weak hs, Neg_inv f hf, Abs_inv f hf, SetDecimals_inv f n hf.weak,
   Div10_inv f n hf, Pow10_inv m, Frac_inv f hf, Trunc_inv f n hf,
   Round_inv f n hf, fun hnz hc => Mul10_inv f n hf hnz hc⟩

/-- C5 witness: the amended preservation theorem applied to the value
`1.25` with sign argument `-1`, decimal target `1` and power `-2`; the
`Round` conjunct exercises the half-up `Add` path. -/
theorem C5_mutators_preserve_invariants_amended_witness :
    Inv (⟨[1, 2, 5], 1, 2, 3⟩ : Analysis) ∧ Inv (Round ⟨[1, 2, 5], 1, 2, 3⟩ 1) :=
  ⟨by decide,
   (C5_mutators_preserve_invariants_amended ⟨[1, 2, 5], 1, 2, 3⟩ (by decide) (-1)
     (Or.inr rfl) 1 (-2)).2.2.2.2.2.2.2.2.1⟩

/-- C8: formatting an invariant-satisfying value with default options and
parsing the result back is the identity — the analyzer's leading-zero
skipping is undone by the decimal-point handler or by the post-loop
empty-buffer fix — and the formatted string has exactly `decimals`
characters after the first decimal point (and no point when
`decimals = 0`). -/
theorem C8_format_parse_roundtrip (x : Analysis) (hx : Inv x) :
    Analyze (StringWith x false) = .ok x ∧
    (List.dropWhile (fun c => c != '.') (StringWith x false)).length =
      (if x.decimals = 0 then 0 else x.decimals + 1) := by
  obtain ⟨nm, sg, dec, ln⟩ := x
  have hlen : ln = nm.length := hx.lenEq
  have hdig : DigitsOk nm := hx.digitsOk
  have hdec : dec < ln := hx.decLt
  have hsg : sg = 1 ∨ sg = -1 := hx.signOk
  have hzs : valN nm = 0 → sg = 1 := hx.zeroSign
  have hhead : 1 < ln - dec → nm.headI ≠ 0 := hx.headOk
  have hall : ∀ c ∈ (nm.take (ln - dec)).map digitChar, (c != '.') = true := by
    intro c hc
    obtain ⟨d, hdmem, rfl⟩ := List.mem_map.mp hc
    have hd10 : d < 10 := hdig d (List.take_subset _ _ hdmem)
    have h3 := (digitChar_facts d hd10).2.2.1
    simpa [bne_iff_ne] using h3
  rcases hsg with rfl | rfl
  · constructor
    · unfold Analyze StringWith
      simp only []
      rw [if_neg (by norm_num), if_neg (by simp), List.nil_append]
      exact analyze_body nm dec ln 1 false hlen hdig hdec hhead hzs (Or.inl rfl)
    · unfold StringWith
      simp only []
      rw [if_neg (by norm_num), if_neg (by simp), List.nil_append,
        dropWhile_append_all _ _ hall]
      by_cases hdp : dec = 0
      · rw [if_neg (by omega), List.dropWhile_nil, if_pos hdp, List.length_nil]
      · rw [if_pos (by omega), List.dropWhile_cons_of_neg (by decide), if_neg hdp]
        simp only [List.length_cons, List.length_map, List.length_drop]
        omega
  · constructor
    · unfold Analyze StringWith
      simp only []
      rw [if_pos trivial, List.singleton_append, List.cons_append, List.foldlM_cons,
        show astep initAState '-' =
          .ok ⟨-1, true, false, false, 1, false, false, false, [], [], 0, 0⟩ from
            by decide,
        exbind_ok]
      exact analyze_body nm dec ln (-1) true hlen hdig hdec hhead hzs (Or.inr rfl)
    · unfold StringWith
      simp only []
      have hall2 : ∀ c ∈ '-' :: (nm.take (ln - dec)).map digitChar,
          ((fun c => c != '.') c) = true := by
        intro c hc
        rcases List.mem_cons.mp hc with rfl | h
        · decide
        · exact hall c h
      rw [if_pos trivial, List.singleton_append, dropWhile_append_all _ _ hall2]
      by_cases hdp : dec = 0
      · rw [if_neg (by omega), List.dropWhile_nil, if_pos hdp, List.length_nil]
      · rw [if_pos (by omega), List.dropWhile_cons_of_neg (by decide), if_neg hdp]
        simp only [List.length_cons, List.length_map, List.length_drop]
        omega

/-- C8 witness: the roundtrip theorem applied to the parse of `"0.05"`,
whose leading zero exercises the analyzer's zero-skipping path. -/
theorem C8_format_parse_roundtrip_witness :
    Analyze (StringWith ⟨[0, 0, 5], 1, 2, 3⟩ false) = .ok ⟨[0, 0, 5], 1, 2, 3⟩ ∧
    (List.dropWhile (fun c => c != '.')
        (StringWith ⟨[0, 0, 5], 1, 2, 3⟩ false)).length =
      (if (⟨[0, 0, 5], 1, 2, 3⟩ : Analysis).decimals = 0 then 0
       else (⟨[0, 0, 5], 1, 2, 3⟩ : Analysis).decimals + 1) :=
  C8_format_parse_roundtrip ⟨[0, 0, 5], 1, 2, 3⟩ (by decide)

/-- C10: every successful `Div` returns a repetend length bounded by the
result's decimal count, forced to `0` whenever a fixed
`decimalPlaces ≥ 0` was requested (the padding branch and the
post-rounding branch both clear it), and when it is positive the
formatter's split of the formatted string at its last `rep` characters
falls inside the fractional digits: those characters are exactly the
digit characters of the last `rep` stored digits. -/
theorem C10_repetend_length_bounds (a b : Analysis) (dp mx : Int) (f : Analysis)
    (rep : Nat) (h : Div a b dp mx = .ok (f, rep)) :
    rep ≤ f.decimals ∧ (0 ≤ dp → rep = 0) ∧
    (0 < rep → ∀ fs : Bool,
      (StringWith f fs).drop ((StringWith f fs).length - rep) =
        (f.norm.drop (f.norm.length - rep)).map digitChar) := by
  unfold Div at h
  rcases hdm : divmod emptyBF emptyBF a b false dp mx with e | v
  · rw [hdm] at h
    rw [show ((Except.error e : Except String (Analysis × Analysis × Nat)).map
        (fun r => (r.1, r.2.2))) = .error e from rfl] at h
    exact Except.noConfusion h
  · rw [hdm] at h
    rw [show (Except.ok v : Except String (Analysis × Analysis × Nat)).map
        (fun r => (r.1, r.2.2)) = .ok (v.1, v.2.2) from rfl] at h
    injection h with h
    rw [Prod.mk.injEq] at h
    obtain ⟨hf, hrep⟩ := h
    subst hf
    subst hrep
    rw [divmod] at hdm
    by_cases ha : IsInt64 a 0 = true
    · rw [if_pos ha] at hdm
      simp only [] at hdm
      injection hdm with hdm
      rw [← hdm]
      exact ⟨Nat.zero_le _, fun _ => rfl, fun h0 => absurd h0 (by simp)⟩
    · rw [if_neg ha] at hdm
      by_cases hb : IsInt64 b 0 = true
      · rw [if_pos hb] at hdm
        exact Except.noConfusion hdm
      · rw [if_neg hb] at hdm
        simp only [] at hdm
        set aCopy := (if a.decimals + b.decimals > 0 then
            Mul10 (Abs a) (a.decimals + b.decimals) else Abs a) with hac
        set bCopy := (if a.decimals + b.decimals > 0 then
            Mul10 (Abs b) (a.decimals + b.decimals) else Abs b) with hbc
        by_cases h1 : IsInt64 bCopy 1 = true
        · rw [if_pos h1] at hdm
          injection hdm with hdm
          rw [← hdm]
          exact ⟨Nat.zero_le _, fun _ => rfl, fun h0 => absurd h0 (by simp)⟩
        · rw [if_neg h1] at hdm
          set G : Int := (if dp ≥ 0 then dp + 1 else dp) with hG
          have hs := divLoop_run_isSome bCopy (valN (bCopy.norm.take (min 5 bCopy.len)))
            ((bCopy.norm.take (min 5 bCopy.len)).length)
            G mx aCopy.norm (bCopy.len - 1)
            (aCopy.norm.take (min (bCopy.len - 1) aCopy.norm.length)) (setInt 0).norm
            (setInt 0)
          obtain ⟨out, hout⟩ := Option.isSome_iff_exists.mp hs
          rw [hout] at hdm
          simp only [] at hdm
          have hrb := divLoop_rep_bounds bCopy
            (valN (bCopy.norm.take (min 5 bCopy.len)))
            ((bCopy.norm.take (min 5 bCopy.len)).length)
            G mx (aCopy.norm.length + (max mx 1).toNat + 3) _ out
            (Or.inr ⟨rfl, rfl, rfl⟩) (fun hg => by simpa using le_of_lt hg) hout
          by_cases hpad : (G ≥ 0 ∧ G > (out.decimals : Int))
          · rw [if_pos hpad] at hdm
            simp only [] at hdm
            by_cases hfin2 : (dp ≥ 0 ∧ dp < (G.toNat : Int))
            · rw [if_pos hfin2] at hdm
              injection hdm with hdm
              rw [← hdm]
              exact ⟨Nat.zero_le _, fun _ => rfl, fun h0 => absurd h0 (by simp)⟩
            · rw [if_neg hfin2] at hdm
              injection hdm with hdm
              rw [← hdm]
              exact ⟨Nat.zero_le _, fun _ => rfl, fun h0 => absurd h0 (by simp)⟩
          · rw [if_neg hpad] at hdm
            by_cases hfin : (dp ≥ 0 ∧ dp < (out.decimals : Int))
            · rw [if_pos hfin] at hdm
              have hGe : G = dp + 1 := by
                rw [hG]
                exact if_pos hfin.1
              have hnorep : ¬ (out.repInd ≥ 0) := by
                intro hge
                obtain ⟨-, h2⟩ := hrb hge
                have h3 := h2 (by rw [hGe]; omega)
                rw [hGe] at h3
                rw [hGe] at hpad
                exact hpad ⟨by omega, by omega⟩
              rw [if_neg hnorep] at hdm
              injection hdm with hdm
              rw [← hdm]
              exact ⟨Nat.zero_le _, fun _ => rfl, fun h0 => absurd h0 (by simp)⟩
            · rw [if_neg hfin] at hdm
              injection hdm with hdm
              have hv1 : v.1 = ⟨out.result, a.sign * b.sign, out.decimals,
                  out.result.length⟩ := by
                rw [← hdm]
              have hv22 : v.2.2 =
                  (if out.repInd ≥ 0 then out.decimals - out.repInd.toNat else 0) := by
                rw [← hdm]
              refine ⟨?_, ?_, ?_⟩
              · rw [hv22, hv1]
                show (if out.repInd ≥ 0 then out.decimals - out.repInd.toNat else 0)
                  ≤ out.decimals
                split <;> omega
              · intro hdp0
                exfalso
                have h4 : ¬ ((dp : Int) < (out.decimals : Int)) :=
                  fun hc => hfin ⟨hdp0, hc⟩
                have hGe : G = dp + 1 := by
                  rw [hG]
                  exact if_pos hdp0
                rw [hGe] at hpad
                have h5 : ¬ ((dp + 1 : Int) > (out.decimals : Int)) :=
                  fun hc => hpad ⟨by omega, hc⟩
                omega
              · intro h0 fs
                rw [hv22] at h0
                have hri : out.repInd ≥ 0 := by
                  by_contra hneg
                  rw [if_neg hneg] at h0
                  exact absurd h0 (by norm_num)
                obtain ⟨hdl, -⟩ := hrb hri
                rw [if_pos hri] at h0
                rw [hv1, hv22, if_pos hri]
                exact stringWith_drop_last
                  ⟨out.result, a.sign * b.sign, out.decimals, out.result.length⟩ fs
                  (out.decimals - out.repInd.toNat) rfl h0
                  (Nat.sub_le out.decimals out.repInd.toNat) hdl

/-- C10 witness: `1 / 7` in auto-detect mode returns `0.142857` with
repetend length 6, and the bounds theorem applies to it. -/
theorem C10_repetend_length_bounds_witness :
    6 ≤ (⟨[0, 1, 4, 2, 8, 5, 7], 1, 6, 7⟩ : Analysis).decimals ∧
    (0 ≤ (-1 : Int) → 6 = 0) ∧
    (0 < 6 → ∀ fs : Bool,
      (StringWith ⟨[0, 1, 4, 2, 8, 5, 7], 1, 6, 7⟩ fs).drop
          ((StringWith ⟨[0, 1, 4, 2, 8, 5, 7], 1, 6, 7⟩ fs).length - 6) =
        ((⟨[0, 1, 4, 2, 8, 5, 7], 1, 6, 7⟩ : Analysis).norm.drop
          ((⟨[0, 1, 4, 2, 8, 5, 7], 1, 6, 7⟩ : Analysis).norm.length - 6)).map
          digitChar) :=
  C10_repetend_length_bounds ⟨[1], 1, 0, 1⟩ ⟨[7], 1, 0, 1⟩ (-1) 10000
    ⟨[0, 1, 4, 2, 8, 5, 7], 1, 6, 7⟩ 6 (by decide)

/-- C4: evaluation of `DivMod` at the claim's contract.  Dividing 10 by 5
exactly yields quotient 2 with remainder 1 — but `2 * 5 + 1 = 11 ≠ 10`,
so the claimed identity `q * |b| + r = |a|` (with `0 ≤ r < |b|` forcing
`r = 0` here) fails: on an exact division `lastRemainder` still holds the
running remainder from before the final subtraction.  And for the
repository's own README example `DivMod(23.85, -11.01)` the remainder is
stored as `1.8300` with 4 decimals — the sum of the operands' decimal
counts (the internal shift), not their maximum 2 as the claim states. -/
theorem C4_divmod_exact_division_wrong :
    DivMod ⟨[1, 0], 1, 0, 2⟩ ⟨[5], 1, 0, 1⟩
      = .ok (⟨[2], 1, 0, 1⟩, ⟨[1], 1, 0, 1⟩) ∧
    valN [2] * valN [5] + valN [1] ≠ valN [1, 0] ∧
    DivMod ⟨[2, 3, 8, 5], 1, 2, 4⟩ ⟨[1, 1, 0, 1], -1, 2, 4⟩
      = .ok (⟨[2], -1, 0, 1⟩, ⟨[1, 8, 3, 0, 0], 1, 4, 5⟩) ∧
    max (⟨[2, 3, 8, 5], 1, 2, 4⟩ : Analysis).decimals
        (⟨[1, 1, 0, 1], -1, 2, 4⟩ : Analysis).decimals = 2 ∧
    (⟨[1, 8, 3, 0, 0], 1, 4, 5⟩ : Analysis).decimals = 4 := by
  decide

end BigfloatSpec
